import Mathlib

/-!
# Shallow embedding of `stmt_document.go` (package go_cosmos)

This file embeds the statement parser / execution engine of the gocosmos
driver (file `stmt_document.go`) into Lean and proves properties of the
embedding.  Strings are modelled as lists of characters (`Str`), machine
integers as `Nat`/`Int`, JSON values by the inductive `Jv`, and the REST
transport collaborator by explicit response values handed to the executor
functions.  Each executor returns a trace recording the driver-level
result, the returned error, and which transport calls were issued.
-/

namespace GoCosmos

/-- Strings modelled as lists of characters. -/
abbrev Str := List Char

/-! ## Character classes of the regular expressions in `stmt_document.go`

`reValPlaceholder = [$@:](\d+)\s*,?` (the `(?i)` flag is irrelevant:
the pattern has no letters).  In RE2, `\d` is `[0-9]` and `\s` is
`[\t\n\f\r ]`. -/

/-- The three placeholder sigil characters `$`, `@`, `:`. -/
def isSigil (c : Char) : Bool := c == '$' || c == '@' || c == ':'

/-- RE2 `\d`, i.e. an ASCII decimal digit. -/
def isDigitCh (c : Char) : Bool := c.isDigit

/-- RE2 `\s`, i.e. one of tab, newline, form feed, carriage return, space. -/
def isSpaceRe (c : Char) : Bool :=
  c == '\t' || c == '\n' || c == '\x0c' || c == '\r' || c == ' '

/-! ## Primitive string operations (models of `strings.*` used by the source) -/

/-- `strings.HasPrefix s pat` — `pat` is a prefix of `s`. -/
def goHasPfx : Str → Str → Bool
  | _, [] => true
  | [], _ :: _ => false
  | a :: as, b :: bs => a == b && goHasPfx as bs

/-- `strings.Contains s pat` (equivalently `strings.Index s pat >= 0`). -/
def goContains : Str → Str → Bool
  | s, pat =>
    if goHasPfx s pat then true
    else
      match s with
      | [] => false
      | _ :: rest => goContains rest pat

/-- `strings.ReplaceAll s old new`: replaces the leftmost non-overlapping
occurrences of `old` in `s` by `new`.  The source only ever calls it with a
nonempty `old` (a regex match text); for `old = []` this model returns `s`
unchanged. -/
def replaceAll (s old new : Str) : Str :=
  match s with
  | [] => []
  | c :: rest =>
    if old ≠ [] ∧ goHasPfx (c :: rest) old = true then
      new ++ replaceAll ((c :: rest).drop old.length) old new
    else
      c :: replaceAll rest old new
termination_by s.length
decreasing_by
  · rename_i hcond
    obtain ⟨h1, -⟩ := hcond
    have : 0 < old.length := List.length_pos.mpr h1
    simp only [List.length_drop, List.length_cons]
    omega
  · simp

/-! ## The placeholder regex `[$@:](\d+)\s*,?` -/

/-- One match of `reValPlaceholder`: the sigil, the captured digit group
(`match[1]`), and the `\s*,?` padding actually consumed.  The whole match
text (`match[0]`) is `sigil :: digits ++ pad`. -/
structure PhMatch where
  sigil : Char
  digits : Str
  pad : Str
deriving DecidableEq, Repr

/-- `match[0]` of a placeholder match. -/
def PhMatch.text (m : PhMatch) : Str := m.sigil :: (m.digits ++ m.pad)

/-- Maximal (leftmost-greedy, as RE2 does for this pattern) match of
`[$@:](\d+)\s*,?` anchored at the start of `s`; returns the match and the
remaining input. -/
def matchPhAt : Str → Option (PhMatch × Str)
  | [] => none
  | c :: rest =>
    if isSigil c then
      let digits := rest.takeWhile isDigitCh
      if digits.isEmpty then none
      else
        let r1 := rest.dropWhile isDigitCh
        let sp := r1.takeWhile isSpaceRe
        let r2 := r1.dropWhile isSpaceRe
        match r2 with
        | ',' :: r3 => some (⟨c, digits, sp ++ [',']⟩, r3)
        | _ => some (⟨c, digits, sp⟩, r2)
    else none

theorem matchPhAt_decomp {s : Str} {m : PhMatch} {r : Str}
    (h : matchPhAt s = some (m, r)) : s = m.text ++ r := by
  match s with
  | [] => simp [matchPhAt] at h
  | c :: rest =>
    simp only [matchPhAt] at h
    split at h
    · split at h
      · exact absurd h (by simp)
      · split at h
        · rename_i r2 r3 hr2
          injection h with h1
          injection h1 with hm hr
          subst hm; subst hr
          simp only [PhMatch.text, List.cons_append, List.cons.injEq, true_and]
          rw [List.append_assoc, List.append_assoc, List.singleton_append, ← hr2]
          simp [List.takeWhile_append_dropWhile]
        · injection h with h1
          injection h1 with hm hr
          subst hm; subst hr
          simp only [PhMatch.text, List.cons_append, List.cons.injEq, true_and]
          rw [List.append_assoc]
          simp [List.takeWhile_append_dropWhile]
    · exact absurd h (by simp)

theorem matchPhAt_consumes {s : Str} {m : PhMatch} {r : Str}
    (h : matchPhAt s = some (m, r)) : r.length < s.length := by
  have := matchPhAt_decomp h
  subst this
  simp [PhMatch.text]
  omega

/-- `regexp.FindAllStringSubmatch` for `reValPlaceholder`: all
non-overlapping matches, scanning left to right. -/
def findAllPh : Str → List PhMatch
  | [] => []
  | c :: cs =>
    match h : matchPhAt (c :: cs) with
    | some (m, rest) => m :: findAllPh rest
    | none => findAllPh cs
termination_by s => s.length
decreasing_by
  · exact matchPhAt_consumes h
  · simp

/-! ## `strconv` models -/

/-- Numeric value of a digit string (most significant digit first). -/
def digitsVal (ds : Str) : Nat :=
  ds.foldl (fun n c => n * 10 + (c.toNat - '0'.toNat)) 0

/-- Go's `math.MaxInt64`. -/
def maxInt64 : Nat := 9223372036854775807

/-- `strconv.Atoi` on a nonempty all-digit string: the value, unless it
overflows a 64-bit int (range error). -/
def atoiDigits (ds : Str) : Option Nat :=
  if digitsVal ds ≤ maxInt64 then some (digitsVal ds) else none

/-- `strconv.Atoi` on a nonempty all-digit string with the error ignored
(`index, _ := strconv.Atoi(token)`): on range error Go returns the clamped
maximum value together with the ignored error. -/
def atoiLoose (ds : Str) : Nat :=
  if digitsVal ds ≤ maxInt64 then digitsVal ds else maxInt64

/-- `strconv.ParseBool`. -/
def parseBoolGo (v : Str) : Option Bool :=
  if v ∈ (["1", "t", "T", "true", "TRUE", "True"].map String.data) then some true
  else if v ∈ (["0", "f", "F", "false", "FALSE", "False"].map String.data) then some false
  else none

/-! ## `StmtSelect.parse`: WITH cross_partition handling (lines 351–357) -/

/-- The `CROSS_PARTITION` WITH-option handling of `StmtSelect.parse`:
given the statement's current cross-partition flag and the option's raw
value, returns the new flag or a parse error.  When the flag is already set
(by a `CROSS PARTITION` clause) the option is skipped entirely
(`ok && !s.isCrossPartition`). -/
def crossPartitionStep (isCrossPartition : Bool) (v : Str) : Except Str Bool :=
  if isCrossPartition then .ok true
  else
    match parseBoolGo v with
    | some true => .ok true
    | _ =>
      .error (("cannot parse query (the only accepted value for cross_partition " ++
        "is true), invalid token at: ").data ++ v)

/-! ## `StmtSelect.parse`: placeholder rewriting (lines 359–373) -/

/-- The per-match body of the rewriting loop: accumulates the
`placeholders` map (`map[int]string`, modelled as an association list whose
head shadows later entries, i.e. newest insert first) and rewrites the
query via `strings.ReplaceAll`.  `key` is stored in the map *without* the
trailing space; the replacement gets one trailing space exactly when
`match[0]` ends with a space. -/
def rewriteLoop : List PhMatch → Str → List (Nat × Str) →
    Except Str (Str × List (Nat × Str))
  | [], q, phs => .ok (q, phs)
  | m :: ms, q, phs =>
    match atoiDigits m.digits with
    | none => .error (("cannot parse query, invalid token at: ").data ++ m.text)
    | some v =>
      let key : Str := '@' :: '_' :: m.digits
      let phs' := (v, key) :: phs
      let key' := if m.pad.getLast? = some ' ' then key ++ [' '] else key
      rewriteLoop ms (replaceAll q m.text key') phs'

/-- Result of the placeholder section of `StmtSelect.parse`. -/
structure SelectParsed where
  numInput : Nat
  placeholders : List (Nat × Str)
  selectQuery : Str
deriving DecidableEq, Repr

/-- The placeholder section of `StmtSelect.parse` (lines 359–373):
`numInput` is set to the number of regex matches before the loop runs. -/
def selectParsePh (q : Str) : Except Str SelectParsed :=
  match rewriteLoop (findAllPh q) q [] with
  | .error e => .error e
  | .ok (q', phs) => .ok ⟨(findAllPh q).length, phs, q'⟩

/-! ## JSON values and `encoding/json.Unmarshal` (scalar fragment)

JSON numbers are decoded by Go into `float64`; we model them as exact
rationals.  Composite JSON values (arrays/objects) are not modelled: no
claim exercises them, and the parser below answers `none` for them. -/

/-- A scalar JSON value (`interface{}` result of `json.Unmarshal`).  A
number with mantissa `m` and decimal exponent `e` denotes `m · 10^e`; it is
kept unnormalized exactly as parsed (`123` parses to mantissa 123,
exponent 0). -/
inductive Jv where
  | null
  | bool (b : Bool)
  | num (mant : Int) (exp10 : Int)
  | str (s : Str)
deriving DecidableEq, Repr

/-- JSON insignificant whitespace. -/
def jsonWs (c : Char) : Bool := c == ' ' || c == '\t' || c == '\n' || c == '\r'

/-- Rest consists only of JSON whitespace. -/
def allWs (s : Str) : Bool := (s.dropWhile jsonWs).isEmpty

/-- Fractional part of a JSON number: `.` must be followed by 1+ digits. -/
def parseFrac : Str → Option (Str × Str)
  | '.' :: u =>
    let d := u.takeWhile isDigitCh
    if d.isEmpty then none else some (d, u.dropWhile isDigitCh)
  | s => some (([] : Str), s)

/-- Exponent tail after `e`/`E`: optional sign then 1+ digits. -/
def parseExpTail (u : Str) : Option (Bool × Str × Str) :=
  let p : Bool × Str :=
    match u with
    | '+' :: w => (false, w)
    | '-' :: w => (true, w)
    | _ => (false, u)
  let d := p.2.takeWhile isDigitCh
  if d.isEmpty then none else some (p.1, d, p.2.dropWhile isDigitCh)

/-- Exponent part of a JSON number. -/
def parseExp : Str → Option (Bool × Str × Str)
  | 'e' :: u => parseExpTail u
  | 'E' :: u => parseExpTail u
  | s => some (false, ([] : Str), s)

/-- JSON number grammar: `-? int frac? exp?` where `int` is `0` or a
nonzero digit followed by digits.  Returns the exact value as a
mantissa/decimal-exponent pair and the unconsumed rest. -/
def jsonNumParse (s : Str) : Option ((Int × Int) × Str) :=
  let p : Bool × Str :=
    match s with
    | '-' :: t => (true, t)
    | _ => (false, s)
  match hs : p.2 with
  | [] => none
  | c :: t =>
    if isDigitCh c = false then none
    else
      let ip2 : Str × Str :=
        if c = '0' then ([c], t)
        else (p.2.takeWhile isDigitCh, p.2.dropWhile isDigitCh)
      match parseFrac ip2.2 with
      | none => none
      | some (fp, s3) =>
        match parseExp s3 with
        | none => none
        | some (negE, ed, s4) =>
          let mant : Int := (if p.1 then -1 else 1) * (digitsVal (ip2.1 ++ fp) : Int)
          let e : Int :=
            (if negE then -(digitsVal ed : Int) else (digitsVal ed : Int)) - fp.length
          some ((mant, e), s4)

/-- JSON string escape characters (`\uXXXX` escapes are not modelled: no
claim uses them). -/
def jsonEsc : Char → Option Char
  | '"' => some '"'
  | '\\' => some '\\'
  | '/' => some '/'
  | 'b' => some '\x08'
  | 'f' => some '\x0c'
  | 'n' => some '\n'
  | 'r' => some '\r'
  | 't' => some '\t'
  | _ => none

/-- Body of a JSON string after the opening quote: decoded content and
rest after the closing quote. -/
def jsonStrLoop : Str → Option (Str × Str)
  | [] => none
  | '"' :: r => some (([] : Str), r)
  | '\\' :: e :: r => do
    let c ← jsonEsc e
    let p ← jsonStrLoop r
    pure (c :: p.1, p.2)
  | ['\\'] => none
  | c :: r =>
    if c.toNat < 32 then none
    else (jsonStrLoop r).map (fun p => (c :: p.1, p.2))

/-- `json.Unmarshal(data, &v)` for `v interface{}`, scalar JSON only:
the whole input must be one JSON value surrounded by whitespace. -/
def jsonParse (s : Str) : Option Jv :=
  let t := s.dropWhile jsonWs
  match t with
  | [] => none
  | '"' :: r =>
    match jsonStrLoop r with
    | some (i, rest) => if allWs rest then some (.str i) else none
    | none => none
  | _ =>
    if goHasPfx t ("null".data) then (if allWs (t.drop 4) then some .null else none)
    else if goHasPfx t ("true".data) then (if allWs (t.drop 4) then some (.bool true) else none)
    else if goHasPfx t ("false".data) then (if allWs (t.drop 5) then some (.bool false) else none)
    else
      match jsonNumParse t with
      | some (q, rest) => if allWs rest then some (.num q.1 q.2) else none
      | none => none

/-! ## `strconv.Unquote` (double-quoted strings, common escapes)

`\x`, `\u`, `\U` and octal escapes are not modelled: no claim uses them. -/

/-- Escape characters accepted by Go inside a double-quoted literal. -/
def goEsc : Char → Option Char
  | 'a' => some '\x07'
  | 'b' => some '\x08'
  | 'f' => some '\x0c'
  | 'n' => some '\n'
  | 'r' => some '\r'
  | 't' => some '\t'
  | 'v' => some '\x0b'
  | '\\' => some '\\'
  | '"' => some '"'
  | _ => none

/-- Decodes the body of a double-quoted Go literal; the closing quote must
be the final character. -/
def unqLoop : Str → Option Str
  | [] => none
  | ['"'] => some []
  | '"' :: _ :: _ => none
  | '\\' :: e :: rest => do
    let c ← goEsc e
    let t ← unqLoop rest
    pure (c :: t)
  | ['\\'] => none
  | '\n' :: _ => none
  | c :: rest => (unqLoop rest).map (c :: ·)

/-- `strconv.Unquote` restricted to double-quoted input (the only shape the
lexer can feed it). -/
def goUnquote : Str → Option Str
  | '"' :: rest => unqLoop rest
  | _ => none

/-! ## `strings.TrimSpace` / `strings.TrimFunc` -/

/-- The source's `_isSpace` helper (note: it also treats `=` as space). -/
def isSpaceGoFn (c : Char) : Bool :=
  c == '\t' || c == '\n' || c == '\x0b' || c == '\x0c' || c == '\r' || c == ' ' ||
  c == '\x85' || c == '\xa0' || c == '='

/-- `unicode.IsSpace` for the characters relevant here (more exotic Unicode
space runes are not modelled). -/
def goTrimSpaceCh (c : Char) : Bool :=
  c == '\t' || c == '\n' || c == '\x0b' || c == '\x0c' || c == '\r' || c == ' ' ||
  c == '\x85' || c == '\xa0'

/-- Trim matching characters from the end. -/
def trimEndF (p : Char → Bool) (s : Str) : Str := (s.reverse.dropWhile p).reverse

/-- `strings.TrimFunc`. -/
def trimF (p : Char → Bool) (s : Str) : Str := trimEndF p (s.dropWhile p)

/-- `strings.TrimSpace`. -/
def goTrimSpace (s : Str) : Str := trimF goTrimSpaceCh s

/-! ## The value lexer of `StmtInsert.parse` (lines 62–110)

Each loop iteration tries, at the start of the remaining input, in order:
placeholder, null, number, boolean, double-quoted string; the branch is
taken only when the regex match starts at offset 0. -/

/-- A parsed value slot: a placeholder reference or a literal
(`s.values` entries; Go's `nil` for SQL `null` is `Jv.null`). -/
inductive ValTok where
  | ph (i : Nat)
  | lit (v : Jv)
deriving DecidableEq, Repr

/-- Consume the `\s*,?` tail of a value-token regex. -/
def consumePad (s : Str) : Str :=
  let r := s.dropWhile isSpaceRe
  match r with
  | ',' :: r2 => r2
  | _ => r

/-- Case-insensitive keyword at offset 0 (`(?i)` keyword match): returns
the matched word in its original case and the rest. -/
def matchCIAt (kw : Str) (s : Str) : Option (Str × Str) :=
  let w := s.take kw.length
  if w.length = kw.length ∧ (w.zip kw).all (fun p => p.1.toLower == p.2) then
    some (w, s.drop kw.length)
  else none

/-- `reValNumber = ([\d\.xe+-]+)\s*,?` character class (no `(?i)` flag on
this one, so only lowercase `x`/`e`). -/
def isNumCls (c : Char) : Bool :=
  isDigitCh c || c == '.' || c == 'x' || c == 'e' || c == '+' || c == '-'

/-- `reValNumber` at offset 0: the captured token and rest after `\s*,?`. -/
def matchNumAt (s : Str) : Option (Str × Str) :=
  let run := s.takeWhile isNumCls
  if run.isEmpty then none
  else some (run, consumePad (s.dropWhile isNumCls))

/-- `reValBoolean = (?i)(true|false)\s*,?` at offset 0. -/
def matchBoolAt (s : Str) : Option (Str × Str) :=
  match matchCIAt ("true".data) s with
  | some (w, r) => some (w, consumePad r)
  | none =>
    match matchCIAt ("false".data) s with
    | some (w, r) => some (w, consumePad r)
    | none => none

/-- Lazy scan of `("(\\"|[^"])*?")` after the opening quote: the raw
(still-escaped) content and the rest after the closing quote.  The
alternation tries `\\"` before `[^"]`, and the lazy star closes at the
first feasible quote. -/
def strTokScan : Str → Option (Str × Str)
  | [] => none
  | '"' :: r => some (([] : Str), r)
  | '\\' :: '"' :: r => (strTokScan r).map (fun p => ('\\' :: '"' :: p.1, p.2))
  | c :: r => (strTokScan r).map (fun p => (c :: p.1, p.2))

/-- `reValString` at offset 0: the full quoted token (`match` text without
the `\s*,?` tail, which `TrimFunc` strips) and the rest. -/
def matchStrTokAt (s : Str) : Option (Str × Str) :=
  match s with
  | '"' :: rest =>
    match strTokScan rest with
    | some (inner, r) => some ('"' :: inner ++ ['"'], consumePad r)
    | none => none
  | _ => none

/-- Outcome of the value lexer. -/
inductive LexResult where
  | ok (vs : List ValTok)
  | err (msg : Str)
  | outOfFuel
deriving DecidableEq, Repr

/-- Prepend a parsed token to a lexer outcome. -/
def pushTok (t : ValTok) : LexResult → LexResult
  | .ok vs => .ok (t :: vs)
  | r => r

/-- One pass of the `StmtInsert.parse` value loop, with fuel for
termination (the source loop always consumes at least one character per
iteration, so `length + 1` fuel never runs out). -/
def parseValuesAux : Nat → Str → LexResult
  | 0, _ => .outOfFuel
  | fuel + 1, temp =>
    if temp = [] then .ok []
    else
      match matchPhAt temp with
      | some (m, rest) =>
        pushTok (.ph (atoiLoose m.digits)) (parseValuesAux fuel (goTrimSpace rest))
      | none =>
      match matchCIAt ("null".data) temp with
      | some (_, rest0) =>
        pushTok (.lit .null) (parseValuesAux fuel (goTrimSpace (consumePad rest0)))
      | none =>
      match matchNumAt temp with
      | some (tok, rest) =>
        match jsonParse tok with
        | none => .err (("(nul) cannot parse query, invalid token at: ").data ++ tok)
        | some v => pushTok (.lit v) (parseValuesAux fuel (goTrimSpace rest))
      | none =>
      match matchBoolAt temp with
      | some (word, rest) =>
        if word = ("true").data then
          pushTok (.lit (.bool true)) (parseValuesAux fuel (goTrimSpace rest))
        else if word = ("false").data then
          pushTok (.lit (.bool false)) (parseValuesAux fuel (goTrimSpace rest))
        else .err (("(bool) cannot parse query, invalid token at: ").data ++ word)
      | none =>
      match matchStrTokAt temp with
      | some (tok, rest) =>
        match goUnquote tok with
        | none => .err (("(unquote) cannot parse query, invalid token at: ").data)
        | some inner =>
          match jsonParse inner with
          | none => .err (("(unmarshal) cannot parse query, invalid token at: ").data ++ inner)
          | some v => pushTok (.lit v) (parseValuesAux fuel (goTrimSpace rest))
      | none => .err (("cannot parse query, invalid token at: ").data ++ temp)

/-- The value lexer of `StmtInsert.parse` applied to a raw value-list
string (`for temp := strings.TrimSpace(s.valuesStr); ...`). -/
def insertParseValues (valuesStr : Str) : LexResult :=
  parseValuesAux (valuesStr.length + 1) (goTrimSpace valuesStr)

/-! ## Errors, transport responses and driver results -/

/-- The driver's error taxonomy: the typed errors `ErrForbidden`,
`ErrNotFound`, `ErrConflict`, the `fmt.Errorf("invalid value index %d")`
placeholder error, the `fmt.Errorf("there is placeholder number %d")`
binding error of `StmtSelect.Query`, and a passthrough transport error
carrying the transport's message. -/
inductive CosmosErr where
  | forbidden
  | notFound
  | conflict
  | invalidValueIndex (i : Nat)
  | missingPlaceholder (i : Nat)
  | transport (msg : Str)
deriving DecidableEq, Repr

/-- The marker substring used to recognize document-level 404s. -/
def docMarker : Str := ("ResourceType: Document").data

/-- A transport response with no document payload (`DeleteDocument`,
`ReplaceDocument`): the retrievable error and the HTTP status code. -/
structure RespNoContent where
  err : Option Str
  statusCode : Int
deriving DecidableEq, Repr

/-- A fetched document: its etag and payload. -/
structure DocGot where
  etag : Str
  payload : List (Str × Jv)
deriving DecidableEq, Repr

/-- A `GetDocument` transport response. -/
structure RespGetDoc where
  err : Option Str
  statusCode : Int
  docInfo : DocGot
deriving DecidableEq, Repr

/-- `fmt.Sprintf("%s", v)` on a driver argument: a Go string prints its
content; the renderings of non-string values are modelled loosely (no
claim depends on them). -/
def formatGoS : Jv → Str
  | .str s => s
  | .null => ("<nil>").data
  | .bool b => if b then ("%!s(bool=true)").data else ("%!s(bool=false)").data
  | .num _ _ => ("%!s(float64)").data

/-- `ResultDelete`. -/
structure ResultDelete where
  successful : Bool
  statusCode : Int
deriving DecidableEq, Repr

/-- `ResultDelete.RowsAffected` (it never returns an error). -/
def ResultDelete.rowsAffected (r : ResultDelete) : Int :=
  if r.successful ∧ r.statusCode < 400 then 1 else 0

/-- `ResultUpdate`. -/
structure ResultUpdate where
  successful : Bool
deriving DecidableEq, Repr

/-- `ResultUpdate.RowsAffected` (it never returns an error). -/
def ResultUpdate.rowsAffected (r : ResultUpdate) : Int :=
  if r.successful then 1 else 0

/-! ## `StmtDelete.Exec` (lines 253–280) -/

/-- Outcome of `StmtDelete.Exec`: the returned `(driver.Result, error)`
pair (either may be nil), or a runtime panic (out-of-range argument index,
or `err.Error()` on a nil error). -/
inductive DeleteOut where
  | ret (result : Option ResultDelete) (error : Option CosmosErr)
  | panik
deriving DecidableEq, Repr

/-- The status-mapping epilogue of `StmtDelete.Exec` once the delete call
has returned (lines 265–279): 403→Forbidden, document-level 404→nil,
other 404→NotFound, default passthrough (there is no 409 case here). -/
def deleteRespPhase (resp : RespNoContent) : DeleteOut :=
  let result : ResultDelete := ⟨resp.err.isNone, resp.statusCode⟩
  if resp.statusCode = 403 then .ret (some result) (some .forbidden)
  else if resp.statusCode = 404 then
    match resp.err with
    | none => .panik
    | some m =>
      if goContains m docMarker then .ret (some result) none
      else .ret (some result) (some .notFound)
  else .ret (some result) (resp.err.map .transport)

/-- `StmtDelete.Exec`: `idStr`/`idPh` are the parsed id literal and
optional placeholder (`s.id`), `numInput` the parsed input count, `args`
the bound arguments, `resp` the transport's `DeleteDocument` response. -/
def deleteExec (idStr : Str) (idPh : Option Nat) (numInput : Nat) (args : List Jv)
    (resp : RespNoContent) : DeleteOut :=
  let idRes : Except Nat Str :=
    match idPh with
    | none => .ok idStr
    | some i =>
      if i ≤ 0 ∨ args.length ≤ i then .error i
      else .ok (formatGoS (args.getD (i - 1) .null))
  match idRes with
  | .error i => .ret none (some (.invalidValueIndex i))
  | .ok _id =>
    match args.get? (numInput - 1) with
    | none => .panik
    | some _pk => deleteRespPhase resp

/-! ## `StmtUpdate.Exec` (lines 645–702) -/

/-- Outcome of `StmtUpdate.Exec`. -/
inductive UpdOut where
  | ret (result : Option ResultUpdate) (error : Option CosmosErr)
  | panik
deriving DecidableEq, Repr

/-- Full trace of one `StmtUpdate.Exec` call: the outcome and which
transport calls were issued. -/
structure UpdateTrace where
  out : UpdOut
  fetchIssued : Bool
  replaceIssued : Bool
deriving DecidableEq, Repr

/-- Modelled from the spec: `DocInfo.RemoveSystemAttrs` (defined outside
`stmt_document.go`) strips the system-managed attributes from a fetched
payload; modelled as dropping underscore-prefixed fields.  It is a pure
payload filter; no claim depends on the exact attribute set. -/
def removeSystemAttrs (kvs : List (Str × Jv)) : List (Str × Jv) :=
  kvs.filter (fun kv => kv.1.head? != some '_')

/-- Map update (`spec.DocumentData[field] = value`). -/
def assocSet (k : Str) (v : Jv) : List (Str × Jv) → List (Str × Jv)
  | [] => [(k, v)]
  | (k', v') :: rest => if k = k' then (k, v) :: rest else (k', v') :: assocSet k v rest

/-- Outcome of the SET-clause overlay loop of `StmtUpdate.Exec`
(lines 670–681). -/
inductive OverlayRes where
  | ok (payload : List (Str × Jv))
  | badIndex (i : Nat)
  | panik
deriving DecidableEq, Repr

/-- The SET-clause overlay loop (`for i := 0; i < len(s.fields); i++`):
placeholders out of range abort with the index error; a missing value slot
(`s.values[i]`) would panic. -/
def overlay (args : List Jv) : List Str → List ValTok → List (Str × Jv) → OverlayRes
  | [], _, acc => .ok acc
  | _ :: _, [], _ => .panik
  | f :: fs, v :: vs, acc =>
    match v with
    | .ph i =>
      if i ≤ 0 ∨ args.length ≤ i then .badIndex i
      else overlay args fs vs (assocSet f (args.getD (i - 1) .null) acc)
    | .lit j => overlay args fs vs (assocSet f j acc)

/-- The status-mapping epilogue of `StmtUpdate.Exec` once the replace call
has returned (lines 682–701): 403→Forbidden, document-level 404→nil,
other 404→NotFound, 409→Conflict, 412→nil, default passthrough. -/
def replacePhaseOut (replaceResp : RespNoContent) : UpdOut :=
  let result : ResultUpdate := ⟨replaceResp.err.isNone⟩
  if replaceResp.statusCode = 403 then .ret (some result) (some .forbidden)
  else if replaceResp.statusCode = 404 then
    match replaceResp.err with
    | none => .panik
    | some m =>
      if goContains m docMarker then .ret (some result) none
      else .ret (some result) (some .notFound)
  else if replaceResp.statusCode = 409 then .ret (some result) (some .conflict)
  else if replaceResp.statusCode = 412 then .ret (some result) none
  else .ret (some result) (replaceResp.err.map .transport)

/-- `StmtUpdate.Exec`: two-phase fetch/replace against explicit transport
responses.  The id is resolved first (its placeholder check precedes any
call); the partition key `args[len(args)-1]` is read when the fetch request
is built; the SET-clause placeholder checks run between fetch and
replace. -/
def updateExec (idStr : Str) (idPh : Option Nat) (fields : List Str) (values : List ValTok)
    (args : List Jv) (getResp : RespGetDoc) (replaceResp : RespNoContent) : UpdateTrace :=
  let idRes : Except Nat Str :=
    match idPh with
    | none => .ok idStr
    | some i =>
      if i ≤ 0 ∨ args.length ≤ i then .error i
      else .ok (formatGoS (args.getD (i - 1) .null))
  match idRes with
  | .error i => ⟨.ret none (some (.invalidValueIndex i)), false, false⟩
  | .ok _id =>
    match args.getLast? with
    | none => ⟨.panik, false, false⟩
    | some _pk =>
      match getResp.err with
      | some m =>
        if getResp.statusCode = 404 then
          if goContains m docMarker then ⟨.ret (some ⟨false⟩) none, true, false⟩
          else ⟨.ret none (some .notFound), true, false⟩
        else ⟨.ret none (some (.transport m)), true, false⟩
      | none =>
        let _etag := getResp.docInfo.etag
        match overlay args fields values (removeSystemAttrs getResp.docInfo.payload) with
        | .badIndex i => ⟨.ret none (some (.invalidValueIndex i)), true, false⟩
        | .panik => ⟨.panik, true, false⟩
        | .ok _spec => ⟨replacePhaseOut replaceResp, true, true⟩

/-! ## `StmtSelect.Query` (lines 387–443) and `ResultSelect` (lines 452–480) -/

/-- A document as returned by the query transport (`DocInfo`). -/
abbrev DocInfo := List (Str × Jv)

/-- A `QueryDocuments` transport response. -/
structure RespQueryDocs where
  err : Option Str
  statusCode : Int
  documents : List DocInfo
  count : Int
  continuationToken : Str
deriving DecidableEq, Repr

/-- `ResultSelect`: note that `count` is taken from the *final* page's
`Count`, while `documents` accumulates all pages. -/
structure ResultSelect where
  count : Int
  documents : List DocInfo
  cursorCount : Nat
  columnList : List Str
deriving DecidableEq, Repr

/-- Lexicographic-by-codepoint string order (Go `sort.Strings`). -/
def strLeB : Str → Str → Bool
  | [], _ => true
  | _ :: _, [] => false
  | a :: as, b :: bs => if a = b then strLeB as bs else decide (a < b)

/-- Insertion into a sorted list (helper for `sort.Strings`). -/
def sortedInsert (x : Str) : List Str → List Str
  | [] => [x]
  | y :: ys => if strLeB x y then x :: y :: ys else y :: sortedInsert x ys

/-- `sort.Strings` (insertion sort; only the sortedness matters here). -/
def sortStrs : List Str → List Str
  | [] => []
  | x :: xs => sortedInsert x (sortStrs xs)

/-- Map lookup for a document row (`rowData[colName]`; a missing key gives
Go's nil value). -/
def assocGet (k : Str) (l : List (Str × Jv)) : Option Jv :=
  (l.find? (fun kv => kv.1 == k)).map Prod.snd

/-- Result of one `ResultSelect.Next` call. -/
inductive NextRes where
  | row (vals : List (Option Jv))
  | eof
  | panik
deriving DecidableEq, Repr

/-- `ResultSelect.Next`: end-of-data once the read position reaches
`count`; otherwise reads `documents[cursorCount]` (panicking if that index
is out of range) and maps it through the fixed column order. -/
def ResultSelect.next (r : ResultSelect) : NextRes × ResultSelect :=
  if r.count ≤ (r.cursorCount : Int) then (.eof, r)
  else
    match r.documents.get? r.cursorCount with
    | none => (.panik, r)
    | some rowData =>
      (.row (r.columnList.map (fun c => assocGet c rowData)),
       { r with cursorCount := r.cursorCount + 1 })

/-- How a sequence of `Next` calls ended. -/
inductive StopKind where
  | eof
  | panik
  | fuelOut
deriving DecidableEq, Repr

/-- Pull up to `fuel` rows from a cursor: the rows yielded and how the
sequence ended. -/
def runNext : ResultSelect → Nat → List (List (Option Jv)) × StopKind
  | _, 0 => ([], .fuelOut)
  | r, fuel + 1 =>
    match r.next with
    | (.eof, _) => ([], .eof)
    | (.panik, _) => ([], .panik)
    | (.row v, r') =>
      let p := runNext r' fuel
      (v :: p.1, p.2)

/-- The pagination loop of `StmtSelect.Query` (lines 403–412) against a
stub transport that answers the i-th `QueryDocuments` call with the i-th
list entry.  Returns the accumulated documents, the number of calls
issued, and the final response; `none` means the stub ran out while the
loop still wanted another page (no such stub is used by any theorem). -/
def queryLoop : List RespQueryDocs → List DocInfo → Nat →
    Option (List DocInfo × Nat × RespQueryDocs)
  | [], _, _ => none
  | p :: rest, acc, calls =>
    if p.err.isSome then some (acc, calls + 1, p)
    else
      let acc' := acc ++ p.documents
      if p.continuationToken = [] then some (acc', calls + 1, p)
      else queryLoop rest acc' (calls + 1)

/-- Map lookup in the parsed `placeholders` map (newest insert first). -/
def phLookup (k : Nat) : List (Nat × Str) → Option Str
  | [] => none
  | (k', v) :: rest => if k = k' then some v else phLookup k rest

/-- The binding loop of `StmtSelect.Query` (lines 389–395): argument
position `i+1` must have a placeholder entry, else the
`"there is placeholder number %d"` error. -/
def bindLoop (phs : List (Nat × Str)) : List Jv → Nat → Except Nat (List (Str × Jv))
  | [], _ => .ok []
  | a :: rest, i =>
    match phLookup (i + 1) phs with
    | none => .error (i + 1)
    | some name => (bindLoop phs rest (i + 1)).map (fun ps => (name, a) :: ps)

/-- Outcome of `StmtSelect.Query`: an error in the binding loop happens
before any transport call (`calls = 0` in `bindError`'s second field by
construction of `selectQueryRun`). -/
inductive QueryOut where
  | bindError (i : Nat) (calls : Nat)
  | bound (rows : Option ResultSelect) (error : Option CosmosErr) (calls : Nat)
  | stubExhausted
deriving DecidableEq, Repr

/-- `StmtSelect.Query`: bind arguments, run the pagination loop, build the
cursor when the final response is error-free, then map the final status
code. -/
def selectQueryRun (phs : List (Nat × Str)) (args : List Jv)
    (pages : List RespQueryDocs) : QueryOut :=
  match bindLoop phs args 0 with
  | .error i => .bindError i 0
  | .ok _params =>
    match queryLoop pages [] 0 with
    | none => .stubExhausted
    | some (docs, calls, last) =>
      let rows : Option ResultSelect :=
        if last.err.isNone then
          some { count := last.count, documents := docs, cursorCount := 0,
                 columnList :=
                   match docs with
                   | [] => []
                   | d :: _ => sortStrs (d.map Prod.fst) }
        else none
      let err : Option CosmosErr :=
        if last.statusCode = 403 then some .forbidden
        else if last.statusCode = 404 then some .notFound
        else if last.statusCode = 409 then some .conflict
        else last.err.map .transport
      .bound rows err calls

/-! # Theorems -/

/-! ## Shared helper lemmas -/

theorem findAllPh_cons_some {c : Char} {cs : Str} {m : PhMatch} {rest : Str}
    (h : matchPhAt (c :: cs) = some (m, rest)) :
    findAllPh (c :: cs) = m :: findAllPh rest := by
  rw [findAllPh.eq_2]
  split
  · rename_i m' rest' heq
    rw [heq] at h
    injection h with h1
    injection h1 with h2 h3
    rw [h2, h3]
  · rename_i heq
    rw [heq] at h
    cases h

theorem findAllPh_cons_none {c : Char} {cs : Str}
    (h : matchPhAt (c :: cs) = none) :
    findAllPh (c :: cs) = findAllPh cs := by
  rw [findAllPh.eq_2]
  split
  · rename_i m' rest' heq
    rw [heq] at h
    cases h
  · rfl

theorem findAllPh_unfold (c : Char) (cs : Str) :
    findAllPh (c :: cs) = (match matchPhAt (c :: cs) with
      | some (m, rest) => m :: findAllPh rest
      | none => findAllPh cs) := by
  cases hm : matchPhAt (c :: cs) with
  | some p =>
    obtain ⟨m, rest⟩ := p
    rw [findAllPh_cons_some hm]
  | none => rw [findAllPh_cons_none hm]

theorem replaceAll_nil (old new : Str) : replaceAll [] old new = [] := by
  rw [replaceAll]

theorem replaceAll_unfold (c : Char) (rest old new : Str) :
    replaceAll (c :: rest) old new =
      if old ≠ [] ∧ goHasPfx (c :: rest) old = true then
        new ++ replaceAll ((c :: rest).drop old.length) old new
      else c :: replaceAll rest old new := by
  rw [replaceAll]

theorem updateExec_reached_replace (idStr : Str) (idPh : Option Nat) (fields : List Str)
    (values : List ValTok) (args : List Jv) (getResp : RespGetDoc) (replaceResp : RespNoContent)
    (h : (updateExec idStr idPh fields values args getResp replaceResp).replaceIssued = true) :
    updateExec idStr idPh fields values args getResp replaceResp =
      ⟨replacePhaseOut replaceResp, true, true⟩ := by
  rcases hip : idPh with _ | i
  · rcases hl : args.getLast? with _ | pk
    · simp only [updateExec, hip, hl] at h
      simp at h
    · rcases hge : getResp.err with _ | m
      · rcases hov : overlay args fields values (removeSystemAttrs getResp.docInfo.payload)
          with p | j | _
        · simp only [updateExec, hip, hl, hge, hov]
        · simp only [updateExec, hip, hl, hge, hov] at h
          simp at h
        · simp only [updateExec, hip, hl, hge, hov] at h
          simp at h
      · simp only [updateExec, hip, hl, hge] at h
        split at h
        · split at h <;> simp at h
        · simp at h
  · by_cases hcond : i ≤ 0 ∨ args.length ≤ i
    · simp only [updateExec, hip, if_pos hcond] at h
      simp at h
    · rcases hl : args.getLast? with _ | pk
      · simp only [updateExec, hip, if_neg hcond, hl] at h
        simp at h
      · rcases hge : getResp.err with _ | m
        · rcases hov : overlay args fields values (removeSystemAttrs getResp.docInfo.payload)
            with p | j | _
          · simp only [updateExec, hip, if_neg hcond, hl, hge, hov]
          · simp only [updateExec, hip, if_neg hcond, hl, hge, hov] at h
            simp at h
          · simp only [updateExec, hip, if_neg hcond, hl, hge, hov] at h
            simp at h
        · simp only [updateExec, hip, if_neg hcond, hl, hge] at h
          split at h
          · split at h <;> simp at h
          · simp at h

/-! ## C7 — the WITH cross_partition option -/

/-- Claim C7, counterexample: the claim says parse succeeds iff the
option's value is the literal `true`, but the value `1` (which
`strconv.ParseBool` accepts as true) also succeeds. -/
theorem claim_C7_counterexample :
    crossPartitionStep false (("1").data) = .ok true ∧ ("1").data ≠ ("true").data := by
  exact ⟨rfl, by decide⟩

/-- Claim C7, amended: with the flag not already set, parse succeeds
(setting the cross-partition flag) iff the value is one of Go
`strconv.ParseBool`'s true spellings (`1`, `t`, `T`, `true`, `TRUE`,
`True`); every other value is a parse error (never a silent false); and
when the `CROSS PARTITION` clause already set the flag the option value is
ignored. -/
theorem crossPartitionStep_false_eq (v : Str) :
    crossPartitionStep false v =
      if v ∈ (["1", "t", "T", "true", "TRUE", "True"].map String.data) then .ok true
      else .error (("cannot parse query (the only accepted value for cross_partition " ++
        "is true), invalid token at: ").data ++ v) := by
  unfold crossPartitionStep parseBoolGo
  rw [if_neg (by decide : ¬ ((false : Bool) = true))]
  by_cases h1 : v ∈ (["1", "t", "T", "true", "TRUE", "True"].map String.data)
  · rw [if_pos h1, if_pos h1]
  · rw [if_neg h1, if_neg h1]
    by_cases h2 : v ∈ (["0", "f", "F", "false", "FALSE", "False"].map String.data)
    · rw [if_pos h2]
    · rw [if_neg h2]

theorem claim_C7 (v : Str) :
    (crossPartitionStep false v = .ok true ↔
      v ∈ (["1", "t", "T", "true", "TRUE", "True"].map String.data)) ∧
    (crossPartitionStep false v = .ok true ∨ ∃ e, crossPartitionStep false v = .error e) ∧
    crossPartitionStep true v = .ok true := by
  have he := crossPartitionStep_false_eq v
  by_cases h1 : v ∈ (["1", "t", "T", "true", "TRUE", "True"].map String.data)
  · rw [he, if_pos h1]
    exact ⟨iff_of_true rfl h1, Or.inl rfl, rfl⟩
  · rw [he, if_neg h1]
    exact ⟨iff_of_false (by simp) h1, Or.inr ⟨_, rfl⟩, rfl⟩

/-! ## C8 — value lexer round-trips -/

/-- Claim C8: the value lexer resolves the token `"123"` to the JSON
number 123, the bare token `123` to the JSON number 123, and the token
`"\"123\""` to the string `123`: a double-quoted value is unescaped and
then parsed as JSON. -/
theorem claim_C8 :
    insertParseValues (("\"123\"").data) = .ok [.lit (.num 123 0)] ∧
    insertParseValues (("123").data) = .ok [.lit (.num 123 0)] ∧
    insertParseValues (("\"\\\"123\\\"\"").data) = .ok [.lit (.str ("123").data)] := by
  refine ⟨by decide, by decide, by decide⟩

/-! ## C3 — UPDATE replace status mapping -/

/-- Claim C3: when the replace call of `StmtUpdate.Exec` comes back with
status 412 and an error, Exec returns a nil error (the conflict is
swallowed, though the result is unsuccessful); status 403 maps to
Forbidden and status 409 maps to Conflict. -/
theorem claim_C3 (idStr : Str) (idPh : Option Nat) (fields : List Str) (values : List ValTok)
    (args : List Jv) (getResp : RespGetDoc) (replaceResp : RespNoContent) (m : Str)
    (hreach : (updateExec idStr idPh fields values args getResp replaceResp).replaceIssued = true)
    (herr : replaceResp.err = some m) :
    (replaceResp.statusCode = 412 →
      (updateExec idStr idPh fields values args getResp replaceResp).out =
        .ret (some ⟨false⟩) none) ∧
    (replaceResp.statusCode = 403 →
      (updateExec idStr idPh fields values args getResp replaceResp).out =
        .ret (some ⟨false⟩) (some .forbidden)) ∧
    (replaceResp.statusCode = 409 →
      (updateExec idStr idPh fields values args getResp replaceResp).out =
        .ret (some ⟨false⟩) (some .conflict)) := by
  rw [updateExec_reached_replace idStr idPh fields values args getResp replaceResp hreach]
  refine ⟨fun hs => ?_, fun hs => ?_, fun hs => ?_⟩ <;>
    simp [replacePhaseOut, hs, herr]

/-- Claim C3, witness. -/
theorem claim_C3_witness :
    (updateExec (("x").data) none [] [] [Jv.str (("p").data)]
      ⟨none, 200, ⟨("e").data, []⟩⟩ ⟨some (("m").data), 412⟩).out =
      .ret (some ⟨false⟩) none := by
  exact (claim_C3 (("x").data) none [] [] [Jv.str (("p").data)]
    ⟨none, 200, ⟨("e").data, []⟩⟩ ⟨some (("m").data), 412⟩ (("m").data)
    (by decide) rfl).1 rfl

theorem deleteExec_resolved (idStr : Str) (idPh : Option Nat) (numInput : Nat)
    (args : List Jv) (resp : RespNoContent)
    (hid : ∀ i, idPh = some i → 1 ≤ i ∧ i < args.length)
    (hpk : numInput - 1 < args.length) :
    deleteExec idStr idPh numInput args resp = deleteRespPhase resp := by
  obtain ⟨pk, hq⟩ : ∃ pk, args.get? (numInput - 1) = some pk := by
    cases hq : args.get? (numInput - 1) with
    | none => exact absurd (List.get?_eq_none.mp hq) (by omega)
    | some pk => exact ⟨pk, rfl⟩
  rcases hip : idPh with _ | i
  · simp only [deleteExec, hq]
  · have hc : ¬(i ≤ 0 ∨ args.length ≤ i) := by
      rcases hid i hip with ⟨h1, h2⟩
      omega
    simp only [deleteExec, if_neg hc, hq]

theorem deleteRespPhase_404 (m : Str) :
    deleteRespPhase ⟨some m, 404⟩ =
      (if goContains m docMarker then .ret (some ⟨false, 404⟩) none
       else .ret (some ⟨false, 404⟩) (some .notFound)) := by
  unfold deleteRespPhase
  norm_num

/-! ## C4 — DELETE 404 splitting -/

/-- Claim C4: on a 404 delete response carrying an error, Exec returns a
nil error iff the error text carries the document marker (so a repeated
delete of the same id succeeds again); without the marker the 404 is
surfaced as NotFound. -/
theorem claim_C4 (idStr : Str) (idPh : Option Nat) (numInput : Nat) (args : List Jv)
    (m : Str)
    (hid : ∀ i, idPh = some i → 1 ≤ i ∧ i < args.length)
    (hpk : numInput - 1 < args.length) :
    (goContains m docMarker = true ∧
      deleteExec idStr idPh numInput args ⟨some m, 404⟩ = .ret (some ⟨false, 404⟩) none) ∨
    (goContains m docMarker = false ∧
      deleteExec idStr idPh numInput args ⟨some m, 404⟩ =
        .ret (some ⟨false, 404⟩) (some .notFound)) := by
  rw [deleteExec_resolved idStr idPh numInput args _ hid hpk, deleteRespPhase_404]
  by_cases hm : goContains m docMarker
  · exact Or.inl ⟨hm, by rw [if_pos hm]⟩
  · exact Or.inr ⟨by simpa using hm, by rw [if_neg hm]⟩

/-- Claim C4, witness (document-marker case: nil error; the non-marker
case is exercised with an unrelated message yielding NotFound). -/
theorem claim_C4_witness :
    deleteExec (("a").data) none 1 [Jv.str (("p").data)] ⟨some docMarker, 404⟩ =
      .ret (some ⟨false, 404⟩) none := by
  rcases claim_C4 (("a").data) none 1 [Jv.str (("p").data)] docMarker
      (by intro i h; cases h) (by decide) with ⟨-, h⟩ | ⟨hm, -⟩
  · exact h
  · exact absurd hm (by decide)

/-! ## C9 — downgraded outcomes report zero rows affected -/

/-- Claim C9: in each of the three downgraded-error situations — DELETE
with a document-level 404, UPDATE whose fetch gets a document-level 404,
and UPDATE whose replace gets a 412 with an error — Exec returns a nil
error but the result object has `Successful = false` and
`RowsAffected() = 0`. -/
theorem claim_C9
    (idStr₁ : Str) (idPh₁ : Option Nat) (numInput₁ : Nat) (args₁ : List Jv) (m₁ : Str)
    (hid₁ : ∀ i, idPh₁ = some i → 1 ≤ i ∧ i < args₁.length)
    (hpk₁ : numInput₁ - 1 < args₁.length)
    (hm₁ : goContains m₁ docMarker = true)
    (idStr₂ : Str) (idPh₂ : Option Nat) (fields₂ : List Str) (values₂ : List ValTok)
    (args₂ : List Jv) (m₂ : Str) (d₂ : DocGot) (rr₂ : RespNoContent)
    (hid₂ : ∀ i, idPh₂ = some i → 1 ≤ i ∧ i < args₂.length)
    (hargs₂ : args₂ ≠ [])
    (hm₂ : goContains m₂ docMarker = true)
    (idStr₃ : Str) (idPh₃ : Option Nat) (fields₃ : List Str) (values₃ : List ValTok)
    (args₃ : List Jv) (g₃ : RespGetDoc) (rr₃ : RespNoContent) (m₃ : Str)
    (hr₃ : (updateExec idStr₃ idPh₃ fields₃ values₃ args₃ g₃ rr₃).replaceIssued = true)
    (he₃ : rr₃.err = some m₃) (hs₃ : rr₃.statusCode = 412) :
    (deleteExec idStr₁ idPh₁ numInput₁ args₁ ⟨some m₁, 404⟩ = .ret (some ⟨false, 404⟩) none ∧
      ResultDelete.rowsAffected ⟨false, 404⟩ = 0) ∧
    (updateExec idStr₂ idPh₂ fields₂ values₂ args₂ ⟨some m₂, 404, d₂⟩ rr₂ =
        ⟨.ret (some ⟨false⟩) none, true, false⟩ ∧
      ResultUpdate.rowsAffected ⟨false⟩ = 0) ∧
    ((updateExec idStr₃ idPh₃ fields₃ values₃ args₃ g₃ rr₃).out = .ret (some ⟨false⟩) none ∧
      ResultUpdate.rowsAffected ⟨false⟩ = 0) := by
  refine ⟨⟨?_, by decide⟩, ⟨?_, by decide⟩, ?_, by decide⟩
  · rw [deleteExec_resolved idStr₁ idPh₁ numInput₁ args₁ _ hid₁ hpk₁, deleteRespPhase_404,
      if_pos hm₁]
  · obtain ⟨pk, hl⟩ : ∃ pk, args₂.getLast? = some pk := by
      cases hl : args₂.getLast? with
      | none => exact absurd (List.getLast?_eq_none_iff.mp hl) hargs₂
      | some pk => exact ⟨pk, rfl⟩
    rcases hip : idPh₂ with _ | i
    · simp only [updateExec, hl]
      norm_num [hm₂]
    · have hc : ¬(i ≤ 0 ∨ args₂.length ≤ i) := by
        rcases hid₂ i hip with ⟨h1, h2⟩
        omega

      simp only [updateExec, if_neg hc, hl]
      norm_num [hm₂]
  · rw [updateExec_reached_replace idStr₃ idPh₃ fields₃ values₃ args₃ g₃ rr₃ hr₃]
    simp [replacePhaseOut, hs₃, he₃]

/-- Claim C9, witness: instantiates all three scenarios concretely. -/
theorem claim_C9_witness :
    (deleteExec (("a").data) none 1 [Jv.str (("p").data)] ⟨some docMarker, 404⟩ =
        .ret (some ⟨false, 404⟩) none ∧
      ResultDelete.rowsAffected ⟨false, 404⟩ = 0) ∧
    (updateExec (("b").data) none [] [] [Jv.str (("p").data)]
        ⟨some docMarker, 404, ⟨("e").data, []⟩⟩ ⟨none, 200⟩ =
        ⟨.ret (some ⟨false⟩) none, true, false⟩ ∧
      ResultUpdate.rowsAffected ⟨false⟩ = 0) ∧
    ((updateExec (("c").data) none [] [] [Jv.str (("p").data)]
        ⟨none, 200, ⟨("e").data, []⟩⟩ ⟨some (("m").data), 412⟩).out =
        .ret (some ⟨false⟩) none ∧
      ResultUpdate.rowsAffected ⟨false⟩ = 0) := by
  exact claim_C9 (("a").data) none 1 [Jv.str (("p").data)] docMarker
    (by intro i h; cases h) (by decide) (by decide)
    (("b").data) none [] [] [Jv.str (("p").data)] docMarker ⟨("e").data, []⟩ ⟨none, 200⟩
    (by intro i h; cases h) (by decide) (by decide)
    (("c").data) none [] [] [Jv.str (("p").data)] ⟨none, 200, ⟨("e").data, []⟩⟩
    ⟨some (("m").data), 412⟩ (("m").data) (by decide) rfl rfl

/-! ## C1 — UPDATE placeholder range errors and the fetch -/

/-- Claim C1, counterexample: an UPDATE whose SET clause carries the
out-of-range placeholder index 5 (only 1 bound argument) does fail with
the index error, but the fetch *is* issued, contradicting the claim that
neither the fetch nor the replace call happens. -/
theorem claim_C1_counterexample :
    (updateExec (("x").data) none [("a").data] [.ph 5] [Jv.str (("p").data)]
      ⟨none, 200, ⟨("e").data, []⟩⟩ ⟨none, 200⟩).fetchIssued = true ∧
    (updateExec (("x").data) none [("a").data] [.ph 5] [Jv.str (("p").data)]
      ⟨none, 200, ⟨("e").data, []⟩⟩ ⟨none, 200⟩).out =
      .ret none (some (.invalidValueIndex 5)) ∧
    ([Jv.str (("p").data)] : List Jv).length ≤ 5 := by
  refine ⟨by decide, by decide, by decide⟩

theorem overlay_badIndex_of_mem (args : List Jv) :
    ∀ (values : List ValTok) (fields : List Str) (acc : List (Str × Jv)),
      fields.length = values.length →
      (∃ i, ValTok.ph i ∈ values ∧ (i ≤ 0 ∨ args.length ≤ i)) →
      ∃ j, (j ≤ 0 ∨ args.length ≤ j) ∧ overlay args fields values acc = .badIndex j := by
  intro values
  induction values with
  | nil =>
    rintro fields acc - ⟨i, hmem, -⟩
    simp at hmem
  | cons v vs ih =>
    rintro fields acc hlen ⟨i, hmem, hbad⟩
    cases fields with
    | nil => simp at hlen
    | cons f fs =>
      have hlen' : fs.length = vs.length := by simpa using hlen
      cases v with
      | ph k =>
        by_cases hk : k ≤ 0 ∨ args.length ≤ k
        · exact ⟨k, hk, by simp only [overlay, if_pos hk]⟩
        · have hmem' : ValTok.ph i ∈ vs := by
            rcases List.mem_cons.mp hmem with heq | h
            · exfalso
              injection heq with hik
              subst hik
              exact hk hbad
            · exact h
          obtain ⟨j, hj, he⟩ := ih fs (assocSet f (args.getD (k - 1) .null) acc) hlen'
            ⟨i, hmem', hbad⟩
          refine ⟨j, hj, ?_⟩
          simp only [overlay, if_neg hk]
          exact he
      | lit w =>
        have hmem' : ValTok.ph i ∈ vs := by
          rcases List.mem_cons.mp hmem with heq | h
          · cases heq
          · exact h
        obtain ⟨j, hj, he⟩ := ih fs (assocSet f w acc) hlen' ⟨i, hmem', hbad⟩
        refine ⟨j, hj, ?_⟩
        simpa [overlay] using he

/-- Claim C1, amended: an out-of-range placeholder index in an UPDATE
(id or SET clause) makes Exec fail with the index error and issue no
replace call; the fetch too is skipped exactly when the offending
placeholder is the id's — a SET-clause violation (with an id in range and
an error-free fetch) is detected only after the fetch has been issued. -/
theorem claim_C1 (idStr : Str) (idPh : Option Nat) (fields : List Str) (values : List ValTok)
    (args : List Jv) (getResp : RespGetDoc) (replaceResp : RespNoContent)
    (h : (∃ i, idPh = some i ∧ (i ≤ 0 ∨ args.length ≤ i)) ∨
         ((∀ i, idPh = some i → 1 ≤ i ∧ i < args.length) ∧ args ≠ [] ∧ getResp.err = none ∧
          fields.length = values.length ∧
          ∃ i, ValTok.ph i ∈ values ∧ (i ≤ 0 ∨ args.length ≤ i))) :
    ∃ j, (j ≤ 0 ∨ args.length ≤ j) ∧
      (updateExec idStr idPh fields values args getResp replaceResp).out =
        .ret none (some (.invalidValueIndex j)) ∧
      (updateExec idStr idPh fields values args getResp replaceResp).replaceIssued = false ∧
      ((updateExec idStr idPh fields values args getResp replaceResp).fetchIssued = false ↔
        ∃ i, idPh = some i ∧ (i ≤ 0 ∨ args.length ≤ i)) := by
  rcases h with ⟨i, hip, hbad⟩ | ⟨hid, hargs, hge, hlen, hbadv⟩
  · have ht : updateExec idStr idPh fields values args getResp replaceResp =
        ⟨.ret none (some (.invalidValueIndex i)), false, false⟩ := by
      simp only [updateExec, hip, if_pos hbad]
    rw [ht]
    exact ⟨i, hbad, rfl, rfl, iff_of_true rfl ⟨i, hip, hbad⟩⟩
  · obtain ⟨pk, hl⟩ : ∃ pk, args.getLast? = some pk := by
      cases hl : args.getLast? with
      | none => exact absurd (List.getLast?_eq_none_iff.mp hl) hargs
      | some pk => exact ⟨pk, rfl⟩
    obtain ⟨j, hj, hov⟩ := overlay_badIndex_of_mem args values fields
      (removeSystemAttrs getResp.docInfo.payload) hlen hbadv
    have ht : updateExec idStr idPh fields values args getResp replaceResp =
        ⟨.ret none (some (.invalidValueIndex j)), true, false⟩ := by
      rcases hip : idPh with _ | i
      · simp only [updateExec, hip, hl, hge, hov]
      · have hc : ¬(i ≤ 0 ∨ args.length ≤ i) := by
          rcases hid i hip with ⟨h1, h2⟩
          omega
        simp only [updateExec, hip, if_neg hc, hl, hge, hov]
    rw [ht]
    refine ⟨j, hj, rfl, rfl, iff_of_false (by simp) ?_⟩
    rintro ⟨i, hip, hbad⟩
    rcases hid i hip with ⟨h1, h2⟩
    omega

/-- Claim C1, witness (id-placeholder case: no call at all is issued). -/
theorem claim_C1_witness :
    ∃ j, (j ≤ 0 ∨ ([Jv.str (("p").data)] : List Jv).length ≤ j) ∧
      (updateExec (("x").data) (some 5) [] [] [Jv.str (("p").data)]
        ⟨none, 200, ⟨("e").data, []⟩⟩ ⟨none, 200⟩).out =
        .ret none (some (.invalidValueIndex j)) ∧
      (updateExec (("x").data) (some 5) [] [] [Jv.str (("p").data)]
        ⟨none, 200, ⟨("e").data, []⟩⟩ ⟨none, 200⟩).replaceIssued = false ∧
      ((updateExec (("x").data) (some 5) [] [] [Jv.str (("p").data)]
        ⟨none, 200, ⟨("e").data, []⟩⟩ ⟨none, 200⟩).fetchIssued = false ↔
        ∃ i, (some 5 : Option Nat) = some i ∧
          (i ≤ 0 ∨ ([Jv.str (("p").data)] : List Jv).length ≤ i)) := by
  exact claim_C1 (("x").data) (some 5) [] [] [Jv.str (("p").data)]
    ⟨none, 200, ⟨("e").data, []⟩⟩ ⟨none, 200⟩ (Or.inl ⟨5, rfl, by decide⟩)

/-! ## C5 — SELECT pagination -/

/-- Claim C5: against a transport returning 3 pages of N documents each
with nonempty continuation tokens followed by one empty-token page with no
documents, `StmtSelect.Query` issues exactly 4 query calls and the built
cursor holds exactly 3·N documents. -/
theorem claim_C5 (phs : List (Nat × Str)) (args : List Jv) (N : Nat)
    (p1 p2 p3 p4 : RespQueryDocs) (bound : List (Str × Jv))
    (hbind : bindLoop phs args 0 = .ok bound)
    (he1 : p1.err = none) (he2 : p2.err = none) (he3 : p3.err = none) (he4 : p4.err = none)
    (ht1 : p1.continuationToken ≠ []) (ht2 : p2.continuationToken ≠ [])
    (ht3 : p3.continuationToken ≠ []) (ht4 : p4.continuationToken = [])
    (hd4 : p4.documents = [])
    (hn1 : p1.documents.length = N) (hn2 : p2.documents.length = N)
    (hn3 : p3.documents.length = N) :
    ∃ r e, selectQueryRun phs args [p1, p2, p3, p4] = .bound (some r) e 4 ∧
      r.documents.length = 3 * N := by
  have hq : queryLoop [p1, p2, p3, p4] [] 0 =
      some (p1.documents ++ p2.documents ++ p3.documents, 4, p4) := by
    simp only [queryLoop, he1, he2, he3, he4, Option.isSome_none, Bool.false_eq_true,
      if_neg ht1, if_neg ht2, if_neg ht3, if_pos ht4, hd4, if_false, List.nil_append,
      List.append_nil, List.append_assoc]
  refine ⟨{ count := p4.count,
            documents := p1.documents ++ p2.documents ++ p3.documents,
            cursorCount := 0,
            columnList :=
              match p1.documents ++ p2.documents ++ p3.documents with
              | [] => []
              | d :: _ => sortStrs (d.map Prod.fst) },
          (if p4.statusCode = 403 then some .forbidden
           else if p4.statusCode = 404 then some .notFound
           else if p4.statusCode = 409 then some .conflict
           else none), ?_, ?_⟩
  · simp [selectQueryRun, hbind, hq, he4]
  · simp only [List.length_append, hn1, hn2, hn3]
    omega

/-- Claim C5, witness: three one-document pages and a final empty page. -/
theorem claim_C5_witness :
    ∃ r e, selectQueryRun [] []
        [⟨none, 200, [[(("a").data, Jv.num 1 0)]], 1, ("t").data⟩,
         ⟨none, 200, [[(("a").data, Jv.num 2 0)]], 1, ("t").data⟩,
         ⟨none, 200, [[(("a").data, Jv.num 3 0)]], 1, ("t").data⟩,
         ⟨none, 200, [], 0, []⟩] = .bound (some r) e 4 ∧
      r.documents.length = 3 * 1 := by
  exact claim_C5 [] [] 1 _ _ _ _ [] rfl rfl rfl rfl rfl (by decide) (by decide) (by decide)
    rfl rfl rfl rfl rfl

/-! ## C2 — cursor row bound -/

/-- Claim C2, counterexample: a single page with `Count = 2` but no
documents and an empty continuation token produces a cursor over zero
accumulated documents whose first `Next` call panics (out-of-range read)
instead of signalling end-of-data, contradicting the claim for arbitrary
per-page Count values. -/
theorem claim_C2_counterexample :
    selectQueryRun [] [] [⟨none, 200, [], 2, []⟩] =
      .bound (some ⟨2, [], 0, []⟩) none 1 ∧
    runNext ⟨2, [], 0, []⟩ 1 = ([], .panik) ∧
    StopKind.panik ≠ StopKind.eof := by
  refine ⟨by decide, by decide, by decide⟩

theorem runNext_sound (fuel : Nat) :
    ∀ r : ResultSelect, r.count ≤ (r.documents.length : Int) →
      ((runNext r fuel).1.length ≤ r.count.toNat - r.cursorCount) ∧
      (runNext r fuel).2 ≠ .panik ∧
      (r.count.toNat - r.cursorCount < fuel → (runNext r fuel).2 = .eof) := by
  induction fuel with
  | zero =>
    intro r _
    refine ⟨by simp [runNext], by simp [runNext], fun hf => absurd hf (by omega)⟩
  | succ n ih =>
    intro r h
    by_cases hc : r.count ≤ (r.cursorCount : Int)
    · have hnext : r.next = (.eof, r) := by
        simp only [ResultSelect.next, if_pos hc]
      simp only [runNext, hnext]
      exact ⟨by simp, by simp, fun _ => by simp⟩
    · have hlt : (r.cursorCount : Int) < r.count := by omega
      have hcl : r.cursorCount < r.documents.length := by
        have : (r.cursorCount : Int) < (r.documents.length : Int) := lt_of_lt_of_le hlt h
        exact_mod_cast this
      obtain ⟨d, hd⟩ : ∃ d, r.documents.get? r.cursorCount = some d := by
        cases hq : r.documents.get? r.cursorCount with
        | none => exact absurd (List.get?_eq_none.mp hq) (by omega)
        | some d => exact ⟨d, rfl⟩
      have hnext : r.next = (.row (r.columnList.map (fun c => assocGet c d)),
          { r with cursorCount := r.cursorCount + 1 }) := by
        simp only [ResultSelect.next, if_neg hc, hd]
      obtain ⟨ih1, ih2, ih3⟩ := ih { r with cursorCount := r.cursorCount + 1 } h
      simp only [runNext, hnext]
      have hcn : r.cursorCount < r.count.toNat := by omega
      refine ⟨?_, ih2, fun hf => ih3 (by simp only; omega)⟩
      simp only [List.length_cons]
      simp only at ih1
      omega

theorem selectQueryRun_cursor_zero {phs : List (Nat × Str)} {args : List Jv}
    {pages : List RespQueryDocs} {r : ResultSelect} {e : Option CosmosErr} {c : Nat}
    (h : selectQueryRun phs args pages = .bound (some r) e c) :
    r.cursorCount = 0 := by
  simp only [selectQueryRun] at h
  split at h
  · cases h
  · split at h
    · cases h
    · rename_i docs
      simp only [QueryOut.bound.injEq] at h
      obtain ⟨h1, -, -⟩ := h
      split at h1
      · injection h1 with h1
        rw [← h1]
      · cases h1

/-- Claim C2, amended: whenever the final page's reported `Count` does not
exceed the number of accumulated documents, the cursor built by
`StmtSelect.Query` yields at most `documents.length` rows over any `Next`
sequence, never panics, and — given enough calls — signals end-of-data. -/
theorem claim_C2 (phs : List (Nat × Str)) (args : List Jv) (pages : List RespQueryDocs)
    (r : ResultSelect) (e : Option CosmosErr) (c : Nat) (fuel : Nat)
    (h : selectQueryRun phs args pages = .bound (some r) e c)
    (hcount : r.count ≤ (r.documents.length : Int)) :
    (runNext r fuel).1.length ≤ r.documents.length ∧
    (runNext r fuel).2 ≠ .panik ∧
    (r.count.toNat < fuel → (runNext r fuel).2 = .eof) := by
  have hcur : r.cursorCount = 0 := selectQueryRun_cursor_zero h
  obtain ⟨h1, h2, h3⟩ := runNext_sound fuel r hcount
  have hle : r.count.toNat ≤ r.documents.length := by omega
  exact ⟨by omega, h2, fun hf => h3 (by omega)⟩

/-- Claim C2, witness: a one-page, one-document query pulled to
exhaustion. -/
theorem claim_C2_witness :
    (runNext ⟨1, [[(("a").data, Jv.num 1 0)]], 0, [("a").data]⟩ 3).1.length ≤
      ([[(("a").data, Jv.num 1 0)]] : List DocInfo).length ∧
    (runNext ⟨1, [[(("a").data, Jv.num 1 0)]], 0, [("a").data]⟩ 3).2 ≠ .panik ∧
    ((1 : Int).toNat < 3 →
      (runNext ⟨1, [[(("a").data, Jv.num 1 0)]], 0, [("a").data]⟩ 3).2 = .eof) := by
  exact claim_C2 [] [] [⟨none, 200, [[(("a").data, Jv.num 1 0)]], 1, []⟩]
    ⟨1, [[(("a").data, Jv.num 1 0)]], 0, [("a").data]⟩ none 1 3 (by decide) (by decide)

/-! ## C10 — duplicate placeholder indices make binding fail -/

theorem atoiDigits_some {ds : Str} {v : Nat} (h : atoiDigits ds = some v) :
    v = digitsVal ds := by
  unfold atoiDigits at h
  split at h
  · injection h with h1
    exact h1.symm
  · cases h

theorem rewriteLoop_lookup (ms : List PhMatch) :
    ∀ (q : Str) (phs0 : List (Nat × Str)) (q' : Str) (phs : List (Nat × Str)),
      rewriteLoop ms q phs0 = .ok (q', phs) →
      ∀ k, phLookup k phs = none ↔
        (phLookup k phs0 = none ∧ k ∉ ms.map (fun m => digitsVal m.digits)) := by
  induction ms with
  | nil =>
    intro q phs0 q' phs h k
    simp only [rewriteLoop, Except.ok.injEq, Prod.mk.injEq] at h
    obtain ⟨h1, h2⟩ := h
    simp [h2]
  | cons m ms ih =>
    intro q phs0 q' phs h k
    simp only [rewriteLoop] at h
    cases hA : atoiDigits m.digits with
    | none => simp [hA] at h
    | some v =>
      simp only [hA] at h
      have hv : v = digitsVal m.digits := atoiDigits_some hA
      have := ih _ _ _ _ h k
      rw [this]
      subst hv
      by_cases hkv : k = digitsVal m.digits
      · simp [phLookup, hkv]
      · simp [phLookup, hkv]

theorem exists_missing_of_dup {l : List Nat} (h : ¬ l.Nodup) :
    ∃ p, 1 ≤ p ∧ p ≤ l.length ∧ p ∉ l := by
  by_contra hcon
  push_neg at hcon
  have hsub : Finset.Icc 1 l.length ⊆ l.toFinset := by
    intro p hp
    rw [Finset.mem_Icc] at hp
    exact List.mem_toFinset.mpr (hcon p hp.1 hp.2)
  have hcard : l.length ≤ l.toFinset.card := by
    have := Finset.card_le_card hsub
    simpa using this
  have hlt : l.toFinset.card < l.length := by
    rcases lt_or_eq_of_le (List.toFinset_card_le (l := l)) with hlt | heq
    · exact hlt
    · exfalso
      have hs := List.dedup_sublist l
      have hdl : l.dedup = l := hs.eq_of_length (by rw [← List.card_toFinset, heq])
      exact h (hdl ▸ List.nodup_dedup l)
  omega

theorem bindLoop_error_of_missing (phs : List (Nat × Str)) :
    ∀ (args : List Jv) (i0 : Nat),
      (∃ j, j < args.length ∧ phLookup (i0 + j + 1) phs = none) →
      ∃ e, bindLoop phs args i0 = .error e := by
  intro args
  induction args with
  | nil =>
    rintro i0 ⟨j, hj, -⟩
    simp at hj
  | cons a rest ih =>
    rintro i0 ⟨j, hj, hl⟩
    cases hq : phLookup (i0 + 1) phs with
    | none => exact ⟨i0 + 1, by simp [bindLoop, hq]⟩
    | some name =>
      cases j with
      | zero =>
        rw [show i0 + 0 + 1 = i0 + 1 by omega] at hl
        rw [hl] at hq
        cases hq
      | succ j' =>
        have hl' : phLookup (i0 + 1 + j' + 1) phs = none := by
          have harith : i0 + 1 + j' + 1 = i0 + (j' + 1) + 1 := by omega
          rw [harith]
          exact hl
        obtain ⟨e, he⟩ := ih (i0 + 1) ⟨j', by simpa using hj, hl'⟩
        refine ⟨e, ?_⟩
        simp [bindLoop, hq, he, Except.map]

/-- Claim C10: a SELECT whose query body repeats a placeholder index, when
queried with as many arguments as `numInput` (which counts occurrences),
fails in the binding loop before any transport call (0 query calls
issued), because some argument position in 1..len(args) has no
placeholder entry. -/
theorem claim_C10 (q : Str) (parsed : SelectParsed) (args : List Jv)
    (pages : List RespQueryDocs)
    (hp : selectParsePh q = .ok parsed)
    (hdup : ¬ ((findAllPh q).map (fun m => digitsVal m.digits)).Nodup)
    (hargs : args.length = parsed.numInput) :
    ∃ i, selectQueryRun parsed.placeholders args pages = .bindError i 0 := by
  simp only [selectParsePh] at hp
  cases hr : rewriteLoop (findAllPh q) q [] with
  | error e => simp [hr] at hp
  | ok pair =>
    obtain ⟨q2, phs⟩ := pair
    simp only [hr, Except.ok.injEq] at hp
    obtain ⟨p, hp1, hp2, hp3⟩ :=
      exists_missing_of_dup (l := (findAllPh q).map (fun m => digitsVal m.digits)) hdup
    have hlk : phLookup p phs = none := by
      rw [rewriteLoop_lookup (findAllPh q) q [] q2 phs hr p]
      exact ⟨rfl, hp3⟩
    have hlen : args.length = (findAllPh q).length := by
      rw [hargs, ← hp]
    have hlen2 : ((findAllPh q).map (fun m => digitsVal m.digits)).length =
        (findAllPh q).length := List.length_map _ _
    obtain ⟨e, he⟩ := bindLoop_error_of_missing phs args 0
      ⟨p - 1, by omega, by rw [show 0 + (p - 1) + 1 = p by omega]; exact hlk⟩
    refine ⟨e, ?_⟩
    have hphs : parsed.placeholders = phs := by rw [← hp]
    rw [hphs]
    simp only [selectQueryRun, he]

/-- Claim C10, witness: the query body `@1 @1` repeats index 1; calling
with 2 arguments fails before any transport call. -/
theorem claim_C10_witness :
    ∃ i, selectQueryRun [(1, ("@_1").data), (1, ("@_1").data)] [Jv.null, Jv.null] [] =
      .bindError i 0 := by
  refine claim_C10 (("@1 @1").data)
    ⟨2, [(1, ("@_1").data), (1, ("@_1").data)], ("@_1 @_1").data⟩ [Jv.null, Jv.null] [] ?_ ?_ ?_
  · simp +decide [selectParsePh, findAllPh_unfold, findAllPh.eq_1, matchPhAt, rewriteLoop,
      replaceAll_unfold, replaceAll_nil, atoiDigits, digitsVal, maxInt64, PhMatch.text]
  · have hf : findAllPh (("@1 @1").data) = [⟨'@', ['1'], [' ']⟩, ⟨'@', ['1'], []⟩] := by
      simp +decide [findAllPh_unfold, findAllPh.eq_1, matchPhAt]
    rw [hf]
    decide
  · rfl

/-! ## C6 — the placeholder rewriting of `StmtSelect.parse`

The development below proves, for every query string, that after a
successful parse (1) `numInput` equals the number of placeholder matches,
(2) the rewritten query contains no placeholder token at any position, and
(3) for every original match the rewritten query contains `@_<digits>`.

### Character-class facts -/

theorem sigil_not_digit {c : Char} (h : isSigil c = true) : isDigitCh c = false := by
  simp only [isSigil, Bool.or_eq_true, beq_iff_eq] at h
  rcases h with (h | h) | h <;> subst h <;> decide

theorem digit_not_sigil {c : Char} (h : isDigitCh c = true) : isSigil c = false := by
  cases hs : isSigil c with
  | false => rfl
  | true => rw [sigil_not_digit hs] at h; cases h

theorem spaceRe_not_sigil {c : Char} (h : isSpaceRe c = true) : isSigil c = false := by
  simp only [isSpaceRe, Bool.or_eq_true, beq_iff_eq] at h
  rcases h with (((h | h) | h) | h) | h <;> subst h <;> decide

theorem spaceRe_not_digit {c : Char} (h : isSpaceRe c = true) : isDigitCh c = false := by
  simp only [isSpaceRe, Bool.or_eq_true, beq_iff_eq] at h
  rcases h with (((h | h) | h) | h) | h <;> subst h <;> decide

theorem sigil_ne_of_not {c d : Char} (hc : isSigil c = true) (hd : isSigil d = false) :
    d ≠ c := by
  intro h
  rw [h, hc] at hd
  cases hd

/-! ### takeWhile / dropWhile decomposition helpers -/

theorem mem_takeWhile_pred (p : Char → Bool) :
    ∀ (l : Str), ∀ c ∈ l.takeWhile p, p c = true := by
  intro l
  induction l with
  | nil => intro c hc; simp [List.takeWhile] at hc
  | cons a t ih =>
    intro c hc
    simp only [List.takeWhile] at hc
    cases hp : p a with
    | false => rw [hp] at hc; simp at hc
    | true =>
      rw [hp] at hc
      rcases List.mem_cons.mp hc with h | h
      · rw [h]; exact hp
      · exact ih c h

theorem head?_dropWhile_pred (p : Char → Bool) :
    ∀ (l : Str) (h : Char), (l.dropWhile p).head? = some h → p h = false := by
  intro l
  induction l with
  | nil => intro h hh; simp [List.dropWhile] at hh
  | cons a t ih =>
    intro h hh
    simp only [List.dropWhile] at hh
    cases hp : p a with
    | false =>
      rw [hp] at hh
      simp only [List.head?_cons, Option.some.injEq] at hh
      rw [← hh]
      exact hp
    | true => rw [hp] at hh; exact ih h hh

theorem takeWhile_dropWhile_append (p : Char → Bool) :
    ∀ (a b : Str), (∀ c ∈ a, p c = true) → (∀ h, b.head? = some h → p h = false) →
      (a ++ b).takeWhile p = a ∧ (a ++ b).dropWhile p = b := by
  intro a
  induction a with
  | nil =>
    intro b _ hb
    cases b with
    | nil => simp [List.takeWhile, List.dropWhile]
    | cons h t =>
      have := hb h (by simp)
      simp [List.takeWhile, List.dropWhile, this]
  | cons c a' ih =>
    intro b ha hb
    have hc : p c = true := ha c (by simp)
    have := ih b (fun d hd => ha d (by simp [hd])) hb
    simp [List.takeWhile, List.dropWhile, hc, this.1, this.2]

/-! ### Prefix / containment characterizations -/

theorem goHasPfx_iff : ∀ (s p : Str), goHasPfx s p = true ↔ ∃ t, s = p ++ t := by
  intro s p
  induction p generalizing s with
  | nil => simp [goHasPfx]
  | cons b bs ih =>
    cases s with
    | nil =>
      simp only [goHasPfx]
      constructor
      · intro h; cases h
      · rintro ⟨t, ht⟩; cases ht
    | cons a as =>
      simp only [goHasPfx, Bool.and_eq_true, beq_iff_eq]
      rw [ih as]
      constructor
      · rintro ⟨rfl, t, rfl⟩
        exact ⟨t, rfl⟩
      · rintro ⟨t, ht⟩
        injection ht with h1 h2
        exact ⟨h1, t, h2⟩

theorem goHasPfx_append_self (p t : Str) : goHasPfx (p ++ t) p = true :=
  (goHasPfx_iff (p ++ t) p).mpr ⟨t, rfl⟩

theorem goContains_unfold (s p : Str) :
    goContains s p = if goHasPfx s p = true then true
      else match s with | [] => false | _ :: rest => goContains rest p := by
  rw [goContains.eq_def]

theorem goContains_iff : ∀ (s p : Str), goContains s p = true ↔ ∃ x y, s = x ++ p ++ y := by
  intro s p
  induction s with
  | nil =>
    rw [goContains_unfold]
    by_cases hp : goHasPfx [] p = true
    · rw [if_pos hp]
      obtain ⟨t, ht⟩ := (goHasPfx_iff [] p).mp hp
      rcases List.append_eq_nil.mp ht.symm with ⟨rfl, rfl⟩
      simp
    · rw [if_neg hp]
      constructor
      · intro h; cases h
      · rintro ⟨x, y, hxy⟩
        rcases List.append_eq_nil.mp hxy.symm with ⟨h1, rfl⟩
        rcases List.append_eq_nil.mp h1 with ⟨rfl, rfl⟩
        exact absurd ((goHasPfx_iff [] []).mpr ⟨[], rfl⟩) hp
  | cons a as ih =>
    rw [goContains_unfold]
    by_cases hp : goHasPfx (a :: as) p = true
    · rw [if_pos hp]
      obtain ⟨t, ht⟩ := (goHasPfx_iff _ p).mp hp
      exact iff_of_true rfl ⟨[], t, by simp [ht]⟩
    · rw [if_neg hp]
      have hred : (match ([] : List Char), p with
          | [], _ => false
          | _ :: rest, pat => goContains rest pat) = false := rfl
      have hred2 : goContains as p = true ↔ ∃ x y, a :: as = x ++ p ++ y := by
        rw [ih]
        constructor
        · rintro ⟨x, y, rfl⟩
          exact ⟨a :: x, y, rfl⟩
        · rintro ⟨x, y, hxy⟩
          cases x with
          | nil =>
            exfalso
            exact hp ((goHasPfx_iff _ p).mpr ⟨y, by simpa using hxy⟩)
          | cons x0 xt =>
            injection hxy with h1 h2
            exact ⟨xt, y, h2⟩
      exact hred2

theorem goContains_append_right {b p : Str} (a : Str) (h : goContains b p = true) :
    goContains (a ++ b) p = true := by
  obtain ⟨x, y, rfl⟩ := (goContains_iff b p).mp h
  exact (goContains_iff _ p).mpr ⟨a ++ x, y, by simp⟩

theorem goContains_of_pfx {s p : Str} (h : goHasPfx s p = true) : goContains s p = true := by
  obtain ⟨t, rfl⟩ := (goHasPfx_iff s p).mp h
  exact (goContains_iff _ p).mpr ⟨[], t, rfl⟩

theorem goContains_cons {t p : Str} (c : Char) (h : goContains t p = true) :
    goContains (c :: t) p = true :=
  goContains_append_right [c] h

/-! ### Structural facts about a placeholder match -/

/-- The character-class shape of any placeholder match. -/
def MatchShape (m : PhMatch) : Prop :=
  isSigil m.sigil = true ∧ m.digits ≠ [] ∧ (∀ c ∈ m.digits, isDigitCh c = true) ∧
  (∀ c ∈ m.pad, isSpaceRe c = true ∨ c = ',')

theorem matchShape_text_tail_no_sigil {m : PhMatch} (hm : MatchShape m) :
    ∀ c ∈ m.digits ++ m.pad, isSigil c = false := by
  intro c hc
  rcases List.mem_append.mp hc with h | h
  · exact digit_not_sigil (hm.2.2.1 c h)
  · rcases hm.2.2.2 c h with hs | hs
    · exact spaceRe_not_sigil hs
    · rw [hs]; decide

theorem matchPhAt_facts {s : Str} {m : PhMatch} {r : Str}
    (h : matchPhAt s = some (m, r)) :
    s = m.text ++ r ∧ isSigil m.sigil = true ∧ m.digits ≠ [] ∧
    (∀ c ∈ m.digits, isDigitCh c = true) ∧
    ((∃ sp, m.pad = sp ++ [','] ∧ ∀ c ∈ sp, isSpaceRe c = true) ∨
      ((∀ c ∈ m.pad, isSpaceRe c = true) ∧
        ∀ h2, r.head? = some h2 → isSpaceRe h2 = false ∧ h2 ≠ ',')) ∧
    (∀ h2, (m.pad ++ r).head? = some h2 → isDigitCh h2 = false) := by
  refine ⟨matchPhAt_decomp h, ?_⟩
  match s with
  | [] => simp [matchPhAt] at h
  | c :: rest =>
    simp only [matchPhAt] at h
    split at h
    · rename_i hsig
      split at h
      · exact absurd h (by simp)
      · rename_i hne
        split at h
        · rename_i r2 r3 hr2
          injection h with h1
          injection h1 with hm1 hr1
          subst hm1
          subst hr1
          refine ⟨hsig, by simpa using hne, mem_takeWhile_pred _ _, ?_, ?_⟩
          · exact Or.inl ⟨_, rfl, mem_takeWhile_pred _ _⟩
          · intro h2 hh2
            simp only [List.append_assoc, List.singleton_append] at hh2
            rw [← hr2, List.takeWhile_append_dropWhile] at hh2
            exact head?_dropWhile_pred _ _ _ hh2
        · rename_i hnc
          injection h with h1
          injection h1 with hm1 hr1
          subst hm1
          subst hr1
          refine ⟨hsig, by simpa using hne, mem_takeWhile_pred _ _, ?_, ?_⟩
          · refine Or.inr ⟨mem_takeWhile_pred _ _, ?_⟩
            intro h2 hh2
            refine ⟨head?_dropWhile_pred _ _ _ hh2, ?_⟩
            intro hcomma
            cases hd : List.dropWhile isSpaceRe (List.dropWhile isDigitCh rest) with
            | nil => rw [hd] at hh2; cases hh2
            | cons d0 dt =>
              rw [hd] at hh2
              simp only [List.head?_cons, Option.some.injEq] at hh2
              subst hh2
              subst hcomma
              exact hnc dt hd
          · intro h2 hh2
            rw [List.takeWhile_append_dropWhile] at hh2
            exact head?_dropWhile_pred _ _ _ hh2
    · exact absurd h (by simp)

theorem matchPhAt_shape {s : Str} {m : PhMatch} {r : Str}
    (h : matchPhAt s = some (m, r)) : MatchShape m := by
  obtain ⟨-, h1, h2, h3, h4, -⟩ := matchPhAt_facts h
  refine ⟨h1, h2, h3, ?_⟩
  rcases h4 with ⟨sp, hsp, hall⟩ | ⟨hall, -⟩
  · intro c hc
    rw [hsp] at hc
    rcases List.mem_append.mp hc with hcs | hcs
    · exact Or.inl (hall c hcs)
    · simp only [List.mem_singleton] at hcs
      exact Or.inr hcs
  · exact fun c hc => Or.inl (hall c hc)

theorem matchPhAt_none_head {c : Char} {t : Str} (h : isSigil c = false) :
    matchPhAt (c :: t) = none := by
  simp [matchPhAt, h]

theorem matchPhAt_none_second {σ h2 : Char} {t : Str} (hs : isDigitCh h2 = false) :
    matchPhAt (σ :: h2 :: t) = none := by
  simp only [matchPhAt]
  split
  · simp [List.takeWhile, hs]
  · rfl

theorem matchPhAt_reconstruct {σ : Char} {ds pd z : Str}
    (hσ : isSigil σ = true) (hds : ds ≠ []) (hall : ∀ c ∈ ds, isDigitCh c = true)
    (hpad : (∃ sp, pd = sp ++ [','] ∧ ∀ c ∈ sp, isSpaceRe c = true) ∨
      ((∀ c ∈ pd, isSpaceRe c = true) ∧
        ∀ h2, z.head? = some h2 → isSpaceRe h2 = false ∧ h2 ≠ ','))
    (hafter : ∀ h2, (pd ++ z).head? = some h2 → isDigitCh h2 = false) :
    matchPhAt (σ :: (ds ++ (pd ++ z))) = some (⟨σ, ds, pd⟩, z) := by
  obtain ⟨htk, hdr⟩ := takeWhile_dropWhile_append isDigitCh ds (pd ++ z) hall hafter
  simp only [matchPhAt, hσ, if_true, htk, hdr]
  rw [if_neg (by simpa using hds)]
  rcases hpad with ⟨sp, rfl, hsp⟩ | ⟨hsp, hz⟩
  · have : (sp ++ [','] ++ z).takeWhile isSpaceRe = sp ∧
        (sp ++ [','] ++ z).dropWhile isSpaceRe = ',' :: z := by
      have := takeWhile_dropWhile_append isSpaceRe sp (',' :: z) hsp
        (by intro h2 hh2; simp only [List.head?_cons, Option.some.injEq] at hh2; rw [← hh2]
            decide)
      simpa using this
    rw [this.1, this.2]
    rfl
  · obtain ⟨htk2, hdr2⟩ := takeWhile_dropWhile_append isSpaceRe pd z hsp
      (fun h2 hh2 => (hz h2 hh2).1)
    rw [htk2, hdr2]
    cases z with
    | nil => rfl
    | cons z0 zt =>
      have hz0 : z0 ≠ ',' := (hz z0 (by simp)).2
      split
      · rename_i r3 hr3
        injection hr3 with h1 h2
        exact absurd h1 hz0
      · rfl

/-! ### replaceAll helper lemmas -/

theorem replaceAll_append_left (o : Char) (old' new : Str) :
    ∀ (w z : Str), (∀ c ∈ w, c ≠ o) →
      replaceAll (w ++ z) (o :: old') new = w ++ replaceAll z (o :: old') new := by
  intro w
  induction w with
  | nil => intro z _; simp
  | cons c w' ih =>
    intro z hw
    have hco : c ≠ o := hw c (by simp)
    have hcond : ¬((o :: old') ≠ [] ∧ goHasPfx (c :: (w' ++ z)) (o :: old') = true) := by
      rintro ⟨-, hpfx⟩
      obtain ⟨t, ht⟩ := (goHasPfx_iff _ _).mp hpfx
      injection ht with h1 h1t
      exact hco h1
    rw [List.cons_append, replaceAll_unfold, if_neg hcond,
      ih z (fun d hd => hw d (List.mem_cons_of_mem _ hd))]
    rfl

theorem replaceAll_head {T R : Str} (t0 : Str) (hR : R = '@' :: t0) :
    ∀ (s : Str) (h : Char), (replaceAll s T R).head? = some h →
      s.head? = some h ∨ h = '@' := by
  intro s h hh
  cases s with
  | nil => rw [replaceAll_nil] at hh; cases hh
  | cons c rest =>
    rw [replaceAll_unfold] at hh
    by_cases hcond : T ≠ [] ∧ goHasPfx (c :: rest) T = true
    · rw [if_pos hcond, hR] at hh
      simp only [List.cons_append, List.head?_cons, Option.some.injEq] at hh
      exact Or.inr hh.symm
    · rw [if_neg hcond] at hh
      simp only [List.head?_cons, Option.some.injEq] at hh
      exact Or.inl (by rw [List.head?_cons, hh])

theorem contains_T_replacement (T R : Str) (hT : T ≠ []) :
    ∀ (n : Nat) (s : Str), s.length ≤ n → goContains s T = true →
      goContains (replaceAll s T R) R = true := by
  intro n
  induction n with
  | zero =>
    intro s hs hc
    have hnil : s = [] := List.length_eq_zero.mp (by omega)
    subst hnil
    obtain ⟨x, y, hxy⟩ := (goContains_iff [] T).mp hc
    rcases List.append_eq_nil.mp hxy.symm with ⟨h1, rfl⟩
    rcases List.append_eq_nil.mp h1 with ⟨rfl, rfl⟩
    exact absurd rfl hT
  | succ n ih =>
    intro s hs hc
    cases s with
    | nil =>
      obtain ⟨x, y, hxy⟩ := (goContains_iff [] T).mp hc
      rcases List.append_eq_nil.mp hxy.symm with ⟨h1, rfl⟩
      rcases List.append_eq_nil.mp h1 with ⟨rfl, rfl⟩
      exact absurd rfl hT
    | cons c rest =>
      by_cases hcond : goHasPfx (c :: rest) T = true
      · rw [replaceAll_unfold, if_pos ⟨hT, hcond⟩]
        exact goContains_of_pfx (goHasPfx_append_self R _)
      · rw [replaceAll_unfold, if_neg (fun hh => hcond hh.2)]
        apply goContains_cons
        have hlen : rest.length ≤ n := by
          simp only [List.length_cons] at hs
          omega
        apply ih rest hlen
        obtain ⟨x, y, hxy⟩ := (goContains_iff _ T).mp hc
        cases x with
        | nil => exact absurd ((goHasPfx_iff _ T).mpr ⟨y, by simpa using hxy⟩) hcond
        | cons x0 xt =>
          injection hxy with h1 h2
          exact (goContains_iff _ T).mpr ⟨xt, y, h2⟩

/-! ### Global facts about `findAllPh` -/

theorem findAllPh_shape_mem :
    ∀ (n : Nat) (s : Str), s.length ≤ n → ∀ m ∈ findAllPh s, MatchShape m := by
  intro n
  induction n with
  | zero =>
    intro s hs m hm
    have hnil : s = [] := List.length_eq_zero.mp (by omega)
    subst hnil
    rw [findAllPh.eq_1] at hm
    cases hm
  | succ n ih =>
    intro s hs m hm
    cases s with
    | nil =>
      rw [findAllPh.eq_1] at hm
      cases hm
    | cons c cs =>
      cases hma : matchPhAt (c :: cs) with
      | some p =>
        obtain ⟨m0, r0⟩ := p
        rw [findAllPh_cons_some hma] at hm
        rcases List.mem_cons.mp hm with rfl | hm2
        · exact matchPhAt_shape hma
        · have hlen : r0.length ≤ n := by
            have := matchPhAt_consumes hma
            simp only [List.length_cons] at this hs
            omega
          exact ih r0 hlen m hm2
      | none =>
        rw [findAllPh_cons_none hma] at hm
        have hlen : cs.length ≤ n := by
          simp only [List.length_cons] at hs
          omega
        exact ih cs hlen m hm

theorem findAllPh_text_contains :
    ∀ (n : Nat) (s : Str), s.length ≤ n → ∀ m ∈ findAllPh s, goContains s m.text = true := by
  intro n
  induction n with
  | zero =>
    intro s hs m hm
    have hnil : s = [] := List.length_eq_zero.mp (by omega)
    subst hnil
    rw [findAllPh.eq_1] at hm
    cases hm
  | succ n ih =>
    intro s hs m hm
    cases s with
    | nil =>
      rw [findAllPh.eq_1] at hm
      cases hm
    | cons c cs =>
      cases hma : matchPhAt (c :: cs) with
      | some p =>
        obtain ⟨m0, r0⟩ := p
        have hdec := matchPhAt_decomp hma
        rw [findAllPh_cons_some hma] at hm
        rcases List.mem_cons.mp hm with rfl | hm2
        · rw [hdec]
          exact goContains_of_pfx (goHasPfx_append_self _ _)
        · have hlen : r0.length ≤ n := by
            have := matchPhAt_consumes hma
            simp only [List.length_cons] at this hs
            omega
          rw [hdec]
          exact goContains_append_right _ (ih r0 hlen m hm2)
      | none =>
        rw [findAllPh_cons_none hma] at hm
        have hlen : cs.length ≤ n := by
          simp only [List.length_cons] at hs
          omega
        exact goContains_cons c (ih cs hlen m hm)

/-- The positional-token invariant: every placeholder match anchored at
any position of `s` has its text in `P`. -/
def InvTok (s : Str) (P : List Str) : Prop :=
  ∀ x r m rest, s = x ++ r → matchPhAt r = some (m, rest) → m.text ∈ P

theorem matchPhAt_head_sigil {s : Str} {m : PhMatch} {r : Str}
    (h : matchPhAt s = some (m, r)) :
    ∀ h0, s.head? = some h0 → isSigil h0 = true := by
  intro h0 hh0
  have hdec := matchPhAt_decomp h
  obtain ⟨-, hsig, -⟩ := matchPhAt_facts h
  rw [hdec] at hh0
  simp only [PhMatch.text, List.cons_append, List.head?_cons, Option.some.injEq] at hh0
  rw [← hh0]
  exact hsig

theorem findAllPh_invTok :
    ∀ (n : Nat) (s : Str), s.length ≤ n → InvTok s ((findAllPh s).map PhMatch.text) := by
  intro n
  induction n with
  | zero =>
    intro s hs x r m rest hsplit hmr
    have hnil : s = [] := List.length_eq_zero.mp (by omega)
    subst hnil
    rcases List.append_eq_nil.mp hsplit.symm with ⟨rfl, rfl⟩
    cases hmr
  | succ n ih =>
    intro s hs x r m rest hsplit hmr
    cases s with
    | nil =>
      rcases List.append_eq_nil.mp hsplit.symm with ⟨rfl, rfl⟩
      cases hmr
    | cons c cs =>
      cases hma : matchPhAt (c :: cs) with
      | some p =>
        obtain ⟨m0, r0⟩ := p
        have hdec := matchPhAt_decomp hma
        have hlen : r0.length ≤ n := by
          have := matchPhAt_consumes hma
          simp only [List.length_cons] at this hs
          omega
        rw [findAllPh_cons_some hma]
        cases x with
        | nil =>
          simp only [List.nil_append] at hsplit
          rw [← hsplit, hma] at hmr
          injection hmr with h1
          injection h1 with h2 h3
          rw [← h2]
          simp
        | cons x0 xt =>
          have heq : (x0 :: xt) ++ r = m0.text ++ r0 := by rw [← hsplit, hdec]
          rcases List.append_eq_append_iff.mp heq with ⟨w, hw1, hw2⟩ | ⟨w, hw1, hw2⟩
          · -- m0.text = (x0 :: xt) ++ w and r = w ++ r0
            cases w with
            | nil =>
              simp only [List.append_nil] at hw1 hw2
              have := ih r0 hlen [] r m rest (by simp [hw2]) hmr
              simp only [List.map_cons]
              exact List.mem_cons_of_mem _ this
            | cons w0 wt =>
              exfalso
              have hrhead : r.head? = some w0 := by rw [hw2]; rfl
              have hsig : isSigil w0 = true := matchPhAt_head_sigil hmr w0 hrhead
              have hshape : MatchShape m0 := matchPhAt_shape hma
              have hw0mem : w0 ∈ m0.digits ++ m0.pad := by
                have h2 := hw1
                simp only [PhMatch.text, List.cons_append, List.cons.injEq] at h2
                rw [h2.2]
                exact List.mem_append.mpr (Or.inr (by simp))
              have := matchShape_text_tail_no_sigil hshape w0 hw0mem
              rw [this] at hsig
              cases hsig
          · -- x = m0.text ++ w and r0 = w ++ r
            have := ih r0 hlen w r m rest hw2 hmr
            simp only [List.map_cons]
            exact List.mem_cons_of_mem _ this
      | none =>
        rw [findAllPh_cons_none hma]
        cases x with
        | nil =>
          simp only [List.nil_append] at hsplit
          rw [← hsplit, hma] at hmr
          cases hmr
        | cons x0 xt =>
          injection hsplit with hdrop2 h2
          have hlen : cs.length ≤ n := by
            simp only [List.length_cons] at hs
            omega
          exact ih cs hlen xt r m rest h2 hmr

/-! ### Preservation lemmas through one `ReplaceAll` step -/

theorem contains_nil_elim {p : Str} {c0 : Char} {p' : Str} (hp : p = c0 :: p')
    (hc : goContains [] p = true) : False := by
  obtain ⟨x, y, hxy⟩ := (goContains_iff [] p).mp hc
  rw [hp] at hxy
  simp at hxy

/-- An occurrence of `@_d` (with `d` all digits) survives replacing a
placeholder-shaped text `T`. -/
theorem contains_atud_preserved (mT : PhMatch) (R : Str) (hshape : MatchShape mT)
    (d : Str) (hd : ∀ c ∈ d, isDigitCh c = true) :
    ∀ (n : Nat) (s : Str), s.length ≤ n →
      goContains s ('@' :: '_' :: d) = true →
      goContains (replaceAll s mT.text R) ('@' :: '_' :: d) = true := by
  intro n
  induction n with
  | zero =>
    intro s hs hc
    have hnil : s = [] := List.length_eq_zero.mp (by omega)
    subst hnil
    exact absurd hc (fun hcc => contains_nil_elim rfl hcc)
  | succ n ih =>
    intro s hs hc
    cases s with
    | nil => exact absurd hc (fun hcc => contains_nil_elim rfl hcc)
    | cons c rest =>
      have hTne : mT.text ≠ [] := by simp [PhMatch.text]
      by_cases hpfx : goHasPfx (c :: rest) mT.text = true
      · obtain ⟨u, hu⟩ := (goHasPfx_iff _ _).mp hpfx
        rw [replaceAll_unfold, if_pos ⟨hTne, hpfx⟩]
        have hdrop : (c :: rest).drop mT.text.length = u := by
          rw [hu]
          exact List.drop_left _ _
        rw [hdrop]
        have hulen : u.length ≤ n := by
          have h1 : (c :: rest).length = mT.text.length + u.length := by
            rw [hu]
            simp
          have h2 : 1 ≤ mT.text.length := by simp [PhMatch.text]
          simp only [List.length_cons] at h1 hs
          omega
        apply goContains_append_right
        apply ih u hulen
        obtain ⟨x, y, hxy⟩ := (goContains_iff _ _).mp hc
        have heq : x ++ (('@' :: '_' :: d) ++ y) = mT.text ++ u := by
          rw [← List.append_assoc, ← hxy, hu]
        rcases List.append_eq_append_iff.mp heq with ⟨w, hw1, hw2⟩ | ⟨w, hw1, hw2⟩
        · -- mT.text = x ++ w and ('@'::'_'::d) ++ y = w ++ u
          cases w with
          | nil =>
            simp only [List.nil_append] at hw2
            exact (goContains_iff _ _).mpr ⟨[], y, by rw [← hw2]; rfl⟩
          | cons w0 wt =>
            exfalso
            have hw0 : w0 = '@' := by
              have := hw2
              simp only [List.cons_append, List.cons.injEq] at this
              exact this.1.symm
            cases x with
            | nil =>
              simp only [List.nil_append] at hw1
              obtain ⟨hsig, hne, hdig, hpad⟩ := hshape
              have hwt : mT.digits ++ mT.pad = wt := by
                have := hw1
                simp only [PhMatch.text, List.cons.injEq] at this
                exact this.2
              have h2 : wt ++ u = '_' :: (d ++ y) := by
                have := hw2
                simp only [List.cons_append, List.cons.injEq] at this
                exact this.2.symm
              cases hdT : mT.digits with
              | nil => exact hne hdT
              | cons d0 dt =>
                cases hwtc : wt with
                | nil =>
                  rw [hwtc, hdT] at hwt
                  simp at hwt
                | cons v0 vt =>
                  have hv0d : v0 = d0 := by
                    rw [hwtc, hdT] at hwt
                    simp only [List.cons_append, List.cons.injEq] at hwt
                    exact hwt.1.symm
                  have hv0u : v0 = '_' := by
                    rw [hwtc] at h2
                    simp only [List.cons_append, List.cons.injEq] at h2
                    exact h2.1
                  have : isDigitCh d0 = true := hdig d0 (by rw [hdT]; simp)
                  rw [← hv0d, hv0u] at this
                  exact absurd this (by decide)
            | cons x0 xt =>
              have hmem : w0 ∈ mT.digits ++ mT.pad := by
                have := hw1
                simp only [PhMatch.text, List.cons_append, List.cons.injEq] at this
                rw [this.2]
                exact List.mem_append.mpr (Or.inr (by simp))
              have hns := matchShape_text_tail_no_sigil hshape w0 hmem
              rw [hw0] at hns
              exact absurd hns (by decide)
        · -- x = mT.text ++ w and u = w ++ (('@'::'_'::d) ++ y)
          exact (goContains_iff _ _).mpr ⟨w, y, by rw [hw2]; simp⟩
      · rw [replaceAll_unfold, if_neg (fun hh => hpfx hh.2)]
        obtain ⟨x, y, hxy⟩ := (goContains_iff _ _).mp hc
        cases x with
        | nil =>
          simp only [List.nil_append, List.cons_append, List.cons.injEq] at hxy
          obtain ⟨hc1, hc2⟩ := hxy
          -- c = '@', rest = '_' :: (d ++ y)
          obtain ⟨hsig, hne, hdig, hpad⟩ := hshape
          have hchars : ∀ ch ∈ ('_' :: d), ch ≠ mT.sigil := by
            intro ch hch
            rcases List.mem_cons.mp hch with rfl | hch2
            · exact sigil_ne_of_not hsig (by decide)
            · exact sigil_ne_of_not hsig (digit_not_sigil (hd ch hch2))
          have hTform : mT.text = mT.sigil :: (mT.digits ++ mT.pad) := rfl
          have hrw : replaceAll (('_' :: d) ++ y) mT.text R =
              ('_' :: d) ++ replaceAll y mT.text R := by
            rw [hTform]
            exact replaceAll_append_left mT.sigil _ R ('_' :: d) y hchars
          have hrest : rest = ('_' :: d) ++ y := by
            rw [List.cons_append]
            exact hc2
          rw [hrest, hrw, hc1]
          exact goContains_of_pfx ((goHasPfx_iff _ _).mpr ⟨replaceAll y mT.text R, by simp⟩)
        | cons x0 xt =>
          injection hxy with h1 h2
          apply goContains_cons
          have hlen : rest.length ≤ n := by
            simp only [List.length_cons] at hs
            omega
          exact ih rest hlen ((goContains_iff _ _).mpr ⟨xt, y, h2⟩)

/-- A pending match text `M` either survives replacing `T`, or the
replacement has already materialized `@_<digits of M>` in its place. -/
theorem contains_pending_preserved (mT mM : PhMatch) (R : Str)
    (hTs : MatchShape mT) (hMs : MatchShape mM)
    (hR : R = '@' :: '_' :: (mT.digits ++
      (if mT.pad.getLast? = some ' ' then [' '] else []))) :
    ∀ (n : Nat) (s : Str), s.length ≤ n →
      goContains s mM.text = true →
      goContains (replaceAll s mT.text R) mM.text = true ∨
      goContains (replaceAll s mT.text R) ('@' :: '_' :: mM.digits) = true := by
  intro n
  induction n with
  | zero =>
    intro s hs hc
    have hnil : s = [] := List.length_eq_zero.mp (by omega)
    subst hnil
    exact absurd hc (fun hcc => contains_nil_elim rfl hcc)
  | succ n ih =>
    intro s hs hc
    cases s with
    | nil => exact absurd hc (fun hcc => contains_nil_elim rfl hcc)
    | cons c rest =>
      have hTne : mT.text ≠ [] := by simp [PhMatch.text]
      by_cases hpfx : goHasPfx (c :: rest) mT.text = true
      · obtain ⟨u, hu⟩ := (goHasPfx_iff _ _).mp hpfx
        rw [replaceAll_unfold, if_pos ⟨hTne, hpfx⟩]
        have hdrop : (c :: rest).drop mT.text.length = u := by
          rw [hu]
          exact List.drop_left _ _
        rw [hdrop]
        have hulen : u.length ≤ n := by
          have h1 : (c :: rest).length = mT.text.length + u.length := by
            rw [hu]
            simp
          have h2 : 1 ≤ mT.text.length := by simp [PhMatch.text]
          simp only [List.length_cons] at h1 hs
          omega
        obtain ⟨x, y, hxy⟩ := (goContains_iff _ _).mp hc
        have heq : x ++ (mM.text ++ y) = mT.text ++ u := by
          rw [← List.append_assoc, ← hxy, hu]
        rcases List.append_eq_append_iff.mp heq with ⟨w, hw1, hw2⟩ | ⟨w, hw1, hw2⟩
        · -- mT.text = x ++ w and mM.text ++ y = w ++ u
          cases w with
          | nil =>
            simp only [List.nil_append] at hw2
            have hMu : goContains u mM.text = true :=
              (goContains_iff _ _).mpr ⟨[], y, by rw [← hw2]; rfl⟩
            rcases ih u hulen hMu with h | h
            · exact Or.inl (goContains_append_right R h)
            · exact Or.inr (goContains_append_right R h)
          | cons w0 wt =>
            have hw0 : w0 = mM.sigil := by
              have := hw2
              simp only [PhMatch.text, List.cons_append, List.cons.injEq] at this
              exact this.1.symm
            cases x with
            | cons x0 xt =>
              exfalso
              have hmem : w0 ∈ mT.digits ++ mT.pad := by
                have := hw1
                simp only [PhMatch.text, List.cons_append, List.cons.injEq] at this
                rw [this.2]
                exact List.mem_append.mpr (Or.inr (by simp))
              have hns := matchShape_text_tail_no_sigil hTs w0 hmem
              rw [hw0, hMs.1] at hns
              cases hns
            | nil =>
              -- aligned: mM.text ++ y = mT.text ++ u
              simp only [List.nil_append] at hw1
              have haligned : mM.text ++ y = mT.text ++ u := by
                rw [hw1]
                simpa using hw2
              have hMT : mM.sigil = mT.sigil ∧
                  mM.digits ++ (mM.pad ++ y) = mT.digits ++ (mT.pad ++ u) := by
                have := haligned
                simp only [PhMatch.text, List.cons_append, List.cons.injEq,
                  List.append_assoc] at this
                exact this
              rcases List.append_eq_append_iff.mp hMT.2 with ⟨a, ha1, ha2⟩ | ⟨a, ha1, ha2⟩
              · -- mT.digits = mM.digits ++ a
                refine Or.inr (goContains_of_pfx ((goHasPfx_iff _ _).mpr ?_))
                refine ⟨(a ++ (if mT.pad.getLast? = some ' ' then [' '] else [])) ++
                  replaceAll u mT.text R, ?_⟩
                rw [hR, ha1]
                simp [List.append_assoc]
              · -- mM.digits = mT.digits ++ a and mT.pad ++ u = a ++ (mM.pad ++ y)
                cases a with
                | nil =>
                  simp only [List.append_nil] at ha1
                  refine Or.inr (goContains_of_pfx ((goHasPfx_iff _ _).mpr ?_))
                  refine ⟨(if mT.pad.getLast? = some ' ' then [' '] else []) ++
                    replaceAll u mT.text R, ?_⟩
                  rw [hR, ← ha1]
                  simp [List.append_assoc]
                | cons a0 at2 =>
                  have ha0dig : isDigitCh a0 = true := by
                    refine hMs.2.2.1 a0 ?_
                    rw [ha1]
                    exact List.mem_append.mpr (Or.inr (by simp))
                  cases hpT : mT.pad with
                  | cons p0 pt =>
                    exfalso
                    have hp0 : p0 = a0 := by
                      rw [hpT] at ha2
                      simp only [List.cons_append, List.cons.injEq] at ha2
                      exact ha2.1
                    have := hTs.2.2.2 p0 (by rw [hpT]; simp)
                    rcases this with hsp | hcm
                    · rw [hp0] at hsp
                      rw [spaceRe_not_digit hsp] at ha0dig
                      cases ha0dig
                    · rw [hp0] at hcm
                      rw [hcm] at ha0dig
                      exact absurd ha0dig (by decide)
                  | nil =>
                    -- mT.pad = []: u = (a0 :: at2) ++ (mM.pad ++ y); R = @_dT
                    have hu2 : u = (a0 :: at2) ++ (mM.pad ++ y) := by
                      rw [hpT] at ha2
                      simpa using ha2
                    have hRnil : R = '@' :: '_' :: mT.digits := by
                      rw [hR, hpT]
                      simp
                    have hchars : ∀ ch ∈ (a0 :: at2) ++ mM.pad, ch ≠ mT.sigil := by
                      intro ch hch
                      rcases List.mem_append.mp hch with hch1 | hch2
                      · have : isDigitCh ch = true := by
                          refine hMs.2.2.1 ch ?_
                          rw [ha1]
                          exact List.mem_append.mpr (Or.inr hch1)
                        exact sigil_ne_of_not hTs.1 (digit_not_sigil this)
                      · rcases hMs.2.2.2 ch hch2 with hsp | hcm
                        · exact sigil_ne_of_not hTs.1 (spaceRe_not_sigil hsp)
                        · rw [hcm]
                          exact sigil_ne_of_not hTs.1 (by decide)
                    have hTform : mT.text = mT.sigil :: (mT.digits ++ mT.pad) := rfl
                    have hrw : replaceAll (((a0 :: at2) ++ mM.pad) ++ y) mT.text R =
                        ((a0 :: at2) ++ mM.pad) ++ replaceAll y mT.text R := by
                      rw [hTform]
                      exact replaceAll_append_left mT.sigil _ R _ y hchars
                    refine Or.inr (goContains_of_pfx ((goHasPfx_iff _ _).mpr ?_))
                    refine ⟨mM.pad ++ replaceAll y mT.text R, ?_⟩
                    rw [hu2, show (a0 :: at2) ++ (mM.pad ++ y) =
                      ((a0 :: at2) ++ mM.pad) ++ y by simp, hrw, hRnil, ha1]
                    simp [List.append_assoc]
        · -- x = mT.text ++ w and u = w ++ (mM.text ++ y)
          have hMu : goContains u mM.text = true :=
            (goContains_iff _ _).mpr ⟨w, y, by rw [hw2]; simp⟩
          rcases ih u hulen hMu with h | h
          · exact Or.inl (goContains_append_right R h)
          · exact Or.inr (goContains_append_right R h)
      · rw [replaceAll_unfold, if_neg (fun hh => hpfx hh.2)]
        obtain ⟨x, y, hxy⟩ := (goContains_iff _ _).mp hc
        cases x with
        | nil =>
          -- mM.text is a prefix of c :: rest
          have hxy2 : c :: rest = (mM.sigil :: (mM.digits ++ mM.pad)) ++ y := by
            simpa [PhMatch.text] using hxy
          simp only [List.cons_append, List.cons.injEq] at hxy2
          obtain ⟨hc1, hc2⟩ := hxy2
          have hchars : ∀ ch ∈ mM.digits ++ mM.pad, ch ≠ mT.sigil := by
            intro ch hch
            rcases List.mem_append.mp hch with hch1 | hch2
            · exact sigil_ne_of_not hTs.1 (digit_not_sigil (hMs.2.2.1 ch hch1))
            · rcases hMs.2.2.2 ch hch2 with hsp | hcm
              · exact sigil_ne_of_not hTs.1 (spaceRe_not_sigil hsp)
              · rw [hcm]
                exact sigil_ne_of_not hTs.1 (by decide)
          have hTform : mT.text = mT.sigil :: (mT.digits ++ mT.pad) := rfl
          have hrw : replaceAll ((mM.digits ++ mM.pad) ++ y) mT.text R =
              (mM.digits ++ mM.pad) ++ replaceAll y mT.text R := by
            rw [hTform]
            exact replaceAll_append_left mT.sigil _ R _ y hchars
          left
          apply goContains_of_pfx
          refine (goHasPfx_iff _ _).mpr ⟨replaceAll y mT.text R, ?_⟩
          rw [hc2, hrw, hc1]
          simp [PhMatch.text, List.append_assoc]
        | cons x0 xt =>
          injection hxy with h1 h2
          have hlen : rest.length ≤ n := by
            simp only [List.length_cons] at hs
            omega
          rcases ih rest hlen ((goContains_iff _ _).mpr ⟨xt, y, h2⟩) with h | h
          · exact Or.inl (goContains_cons c h)
          · exact Or.inr (goContains_cons c h)

theorem invTok_suffix {a b : Str} {Q : List Str} (h : InvTok (a ++ b) Q) : InvTok b Q := by
  intro x r m rest hsplit hmr
  exact h (a ++ x) r m rest (by rw [hsplit, List.append_assoc]) hmr

theorem matchPhAt_isSome_of_digit {c r0 : Char} {rt : Str}
    (hc : isSigil c = true) (hd : isDigitCh r0 = true) :
    matchPhAt (c :: r0 :: rt) ≠ none := by
  intro h
  have htw : (r0 :: rt).takeWhile isDigitCh = r0 :: rt.takeWhile isDigitCh := by
    simp [List.takeWhile, hd]
  simp only [matchPhAt, hc, if_true, htw] at h
  simp only [List.isEmpty_cons, Bool.false_eq_true, if_false] at h
  split at h <;> cases h

/-- Replacing `T` by its `@_digits` rewriting removes `T` from the pending
token set: every anchored match of the result is one of the remaining
pending texts. -/
theorem invTok_replaceAll (mT : PhMatch) (R : Str) (P : List Str)
    (hTs : MatchShape mT)
    (hR : R = '@' :: '_' :: (mT.digits ++
      (if mT.pad.getLast? = some ' ' then [' '] else []))) :
    ∀ (n : Nat) (s : Str), s.length ≤ n →
      InvTok s (mT.text :: P) → InvTok (replaceAll s mT.text R) P := by
  have hRtail : ∀ c ∈ ('_' :: (mT.digits ++
      (if mT.pad.getLast? = some ' ' then ([' '] : Str) else []))), isSigil c = false := by
    intro c hc
    rcases List.mem_cons.mp hc with rfl | hc2
    · decide
    · rcases List.mem_append.mp hc2 with h | h
      · exact digit_not_sigil (hTs.2.2.1 c h)
      · split at h
        · simp only [List.mem_singleton] at h
          rw [h]
          decide
        · cases h
  intro n
  induction n with
  | zero =>
    intro s hs hinv x r m rest hsplit hmr
    have hnil : s = [] := List.length_eq_zero.mp (by omega)
    subst hnil
    rw [replaceAll_nil] at hsplit
    rcases List.append_eq_nil.mp hsplit.symm with ⟨rfl, rfl⟩
    cases hmr
  | succ n ih =>
    intro s hs hinv x r m rest hsplit hmr
    cases s with
    | nil =>
      rw [replaceAll_nil] at hsplit
      rcases List.append_eq_nil.mp hsplit.symm with ⟨rfl, rfl⟩
      cases hmr
    | cons c crest =>
      have hTne : mT.text ≠ [] := by simp [PhMatch.text]
      by_cases hpfx : goHasPfx (c :: crest) mT.text = true
      · obtain ⟨u, hu⟩ := (goHasPfx_iff _ _).mp hpfx
        rw [replaceAll_unfold, if_pos ⟨hTne, hpfx⟩] at hsplit
        have hdrop : (c :: crest).drop mT.text.length = u := by
          rw [hu]
          exact List.drop_left _ _
        rw [hdrop] at hsplit
        have hulen : u.length ≤ n := by
          have h1 : (c :: crest).length = mT.text.length + u.length := by
            rw [hu]
            simp
          have h2 : 1 ≤ mT.text.length := by simp [PhMatch.text]
          simp only [List.length_cons] at h1 hs
          omega
        have hinvu : InvTok u (mT.text :: P) := by
          rw [hu] at hinv
          exact invTok_suffix hinv
        rcases List.append_eq_append_iff.mp hsplit.symm with ⟨w, hw1, hw2⟩ | ⟨w, hw1, hw2⟩
        · cases w with
          | nil =>
            simp only [List.nil_append] at hw2
            exact ih u hulen hinvu [] r m rest (by rw [List.nil_append, hw2]) hmr
          | cons w0 wt =>
            exfalso
            cases x with
            | nil =>
              simp only [List.nil_append] at hw1
              rw [hw2, ← hw1, hR, List.cons_append, List.cons_append] at hmr
              rw [matchPhAt_none_second (show isDigitCh '_' = false by decide)] at hmr
              cases hmr
            | cons x0 xt =>
              have hmem : w0 ∈ ('_' :: (mT.digits ++
                  (if mT.pad.getLast? = some ' ' then ([' '] : Str) else []))) := by
                have hw1' := hw1
                rw [hR, List.cons_append] at hw1'
                injection hw1' with h1 h2
                rw [h2]
                exact List.mem_append.mpr (Or.inr (by simp))
              rw [hw2, List.cons_append] at hmr
              rw [matchPhAt_none_head (hRtail w0 hmem)] at hmr
              cases hmr
        · exact ih u hulen hinvu w r m rest hw2 hmr
      · rw [replaceAll_unfold, if_neg (fun hh => hpfx hh.2)] at hsplit
        cases x with
        | cons x0 xt =>
          injection hsplit with h1 h2
          have hlen : crest.length ≤ n := by
            simp only [List.length_cons] at hs
            omega
          have hinv' : InvTok crest (mT.text :: P) := @invTok_suffix [c] crest _ hinv
          exact ih crest hlen hinv' xt r m rest h2 hmr
        | nil =>
          simp only [List.nil_append] at hsplit
          cases hm0 : matchPhAt (c :: crest) with
          | some p =>
            obtain ⟨m0, y⟩ := p
            have hm0P : m0.text ∈ mT.text :: P := hinv [] (c :: crest) m0 y rfl hm0
            have hm0ne : m0.text ≠ mT.text := by
              intro hEq
              apply hpfx
              refine (goHasPfx_iff _ _).mpr ⟨y, ?_⟩
              rw [← hEq]
              exact matchPhAt_decomp hm0
            have hm0P' : m0.text ∈ P := by
              rcases List.mem_cons.mp hm0P with h | h
              · exact absurd h hm0ne
              · exact h
            obtain ⟨hdec, hσ, hds, hall, hpad, hafter⟩ := matchPhAt_facts hm0
            have hcrest : c = m0.sigil ∧ crest = m0.digits ++ (m0.pad ++ y) := by
              have hdec' := hdec
              simp only [PhMatch.text, List.cons_append, List.append_assoc,
                List.cons.injEq] at hdec'
              exact hdec'
            have hchars : ∀ ch ∈ m0.digits ++ m0.pad, ch ≠ mT.sigil := fun ch hch =>
              sigil_ne_of_not hTs.1 (matchShape_text_tail_no_sigil (matchPhAt_shape hm0) ch hch)
            have hTform : mT.text = mT.sigil :: (mT.digits ++ mT.pad) := rfl
            have hrw : replaceAll crest mT.text R =
                (m0.digits ++ m0.pad) ++ replaceAll y mT.text R := by
              rw [hcrest.2, ← List.append_assoc, hTform]
              exact replaceAll_append_left mT.sigil _ R _ y hchars
            have hpad' : (∃ sp, m0.pad = sp ++ [','] ∧ ∀ ch ∈ sp, isSpaceRe ch = true) ∨
                ((∀ ch ∈ m0.pad, isSpaceRe ch = true) ∧
                  ∀ h2, (replaceAll y mT.text R).head? = some h2 →
                    isSpaceRe h2 = false ∧ h2 ≠ ',') := by
              rcases hpad with h | ⟨h1, h2⟩
              · exact Or.inl h
              · refine Or.inr ⟨h1, ?_⟩
                intro h2c hh
                rcases replaceAll_head ('_' :: (mT.digits ++
                    (if mT.pad.getLast? = some ' ' then [' '] else []))) hR y h2c hh with
                  hy | rfl
                · exact h2 h2c hy
                · exact ⟨by decide, by decide⟩
            have hafter' : ∀ h2, (m0.pad ++ replaceAll y mT.text R).head? = some h2 →
                isDigitCh h2 = false := by
              intro h2c hh
              cases hp : m0.pad with
              | cons p0 pt =>
                rw [hp] at hh
                simp only [List.cons_append, List.head?_cons, Option.some.injEq] at hh
                apply hafter
                rw [hp]
                simp only [List.cons_append, List.head?_cons, Option.some.injEq]
                exact hh
              | nil =>
                rw [hp] at hh
                simp only [List.nil_append] at hh
                rcases replaceAll_head ('_' :: (mT.digits ++
                    (if mT.pad.getLast? = some ' ' then [' '] else []))) hR y h2c hh with
                  hy | rfl
                · apply hafter
                  rw [hp]
                  simpa using hy
                · decide
            have hrec := matchPhAt_reconstruct hσ hds hall hpad' hafter'
            have hresult : c :: replaceAll crest mT.text R =
                m0.sigil :: (m0.digits ++ (m0.pad ++ replaceAll y mT.text R)) := by
              rw [hcrest.1, hrw, List.append_assoc]
            rw [← hsplit, hresult, hrec] at hmr
            injection hmr with hmr1
            injection hmr1 with hm hr2
            rw [← hm]
            exact hm0P'
          | none =>
            exfalso
            by_cases hsig : isSigil c = true
            · cases crest with
              | nil =>
                rw [replaceAll_nil] at hsplit
                rw [← hsplit] at hmr
                simp [matchPhAt, hsig] at hmr
              | cons r0 rt =>
                have hr0 : isDigitCh r0 = false := by
                  by_contra hcon
                  rw [Bool.not_eq_false] at hcon
                  exact matchPhAt_isSome_of_digit hsig hcon hm0
                cases hz : replaceAll (r0 :: rt) mT.text R with
                | nil =>
                  rw [hz] at hsplit
                  rw [← hsplit] at hmr
                  simp [matchPhAt, hsig] at hmr
                | cons z0 zt =>
                  have hz0 : isDigitCh z0 = false := by
                    have hh : (replaceAll (r0 :: rt) mT.text R).head? = some z0 := by
                      rw [hz]
                      rfl
                    rcases replaceAll_head ('_' :: (mT.digits ++
                        (if mT.pad.getLast? = some ' ' then [' '] else []))) hR
                        (r0 :: rt) z0 hh with hy | rfl
                    · simp only [List.head?_cons, Option.some.injEq] at hy
                      rw [← hy]
                      exact hr0
                    · decide
                  rw [hz] at hsplit
                  rw [← hsplit, matchPhAt_none_second hz0] at hmr
                  cases hmr
            · have hsig' : isSigil c = false := by
                revert hsig
                cases isSigil c <;> simp
              rw [← hsplit, matchPhAt_none_head hsig'] at hmr
              cases hmr

theorem keyPrime_eq (m : PhMatch) :
    (if m.pad.getLast? = some ' ' then ('@' :: '_' :: m.digits) ++ [' ']
      else ('@' :: '_' :: m.digits)) =
    '@' :: '_' :: (m.digits ++ (if m.pad.getLast? = some ' ' then [' '] else [])) := by
  split <;> simp

theorem goContains_of_contains_append {s p t : Str} (h : goContains s (p ++ t) = true) :
    goContains s p = true := by
  obtain ⟨x, y, hxy⟩ := (goContains_iff _ _).mp h
  exact (goContains_iff _ _).mpr ⟨x, t ++ y, by rw [hxy]; simp⟩

/-- After the rewriting loop finishes, no anchored placeholder match remains
anywhere in the rewritten query. -/
theorem rewriteLoop_invTok :
    ∀ (ms : List PhMatch) (q : Str) (phs : List (Nat × Str)) (q' : Str)
      (phs' : List (Nat × Str)),
      (∀ m ∈ ms, MatchShape m) →
      InvTok q (ms.map PhMatch.text) →
      rewriteLoop ms q phs = .ok (q', phs') →
      InvTok q' [] := by
  intro ms
  induction ms with
  | nil =>
    intro q phs q' phs' hsh hinv hloop
    simp only [rewriteLoop] at hloop
    injection hloop with h1
    injection h1 with hq hp
    rw [← hq]
    simpa using hinv
  | cons m0 ms' ih =>
    intro q phs q' phs' hsh hinv hloop
    simp only [rewriteLoop] at hloop
    cases hat : atoiDigits m0.digits with
    | none =>
      rw [hat] at hloop
      cases hloop
    | some v =>
      rw [hat] at hloop
      simp only at hloop
      have hsh0 : MatchShape m0 := hsh m0 (by simp)
      have hinv2 := invTok_replaceAll m0 _ (ms'.map PhMatch.text) hsh0 (keyPrime_eq m0)
        q.length q le_rfl (by simpa using hinv)
      exact ih _ _ q' phs' (fun m hm => hsh m (by simp [hm])) hinv2 hloop

theorem findAllPh_nil_of_invTok :
    ∀ (n : Nat) (s : Str), s.length ≤ n → InvTok s [] → findAllPh s = [] := by
  intro n
  induction n with
  | zero =>
    intro s hs _
    have hnil : s = [] := List.length_eq_zero.mp (by omega)
    subst hnil
    rw [findAllPh.eq_1]
  | succ n ih =>
    intro s hs hinv
    cases s with
    | nil => rw [findAllPh.eq_1]
    | cons c cs =>
      cases hm : matchPhAt (c :: cs) with
      | some p =>
        obtain ⟨m, r⟩ := p
        exact absurd (hinv [] (c :: cs) m r rfl hm) (by simp)
      | none =>
        rw [findAllPh_cons_none hm]
        have hlen : cs.length ≤ n := by
          simp only [List.length_cons] at hs
          omega
        exact ih cs hlen (@invTok_suffix [c] cs _ hinv)

/-- An `@_d` occurrence survives the whole rewriting loop. -/
theorem rewriteLoop_contains_atud :
    ∀ (ms : List PhMatch) (q : Str) (phs : List (Nat × Str)) (q' : Str)
      (phs' : List (Nat × Str)),
      (∀ m ∈ ms, MatchShape m) →
      rewriteLoop ms q phs = .ok (q', phs') →
      ∀ (d : Str), (∀ c ∈ d, isDigitCh c = true) →
        goContains q ('@' :: '_' :: d) = true →
        goContains q' ('@' :: '_' :: d) = true := by
  intro ms
  induction ms with
  | nil =>
    intro q phs q' phs' hsh hloop d hd hq
    simp only [rewriteLoop] at hloop
    injection hloop with h1
    injection h1 with hq2 hp
    rw [← hq2]
    exact hq
  | cons m0 ms' ih =>
    intro q phs q' phs' hsh hloop d hd hq
    simp only [rewriteLoop] at hloop
    cases hat : atoiDigits m0.digits with
    | none =>
      rw [hat] at hloop
      cases hloop
    | some v =>
      rw [hat] at hloop
      simp only at hloop
      have hsh0 : MatchShape m0 := hsh m0 (by simp)
      have hstep := contains_atud_preserved m0
        (if m0.pad.getLast? = some ' ' then ('@' :: '_' :: m0.digits) ++ [' ']
          else ('@' :: '_' :: m0.digits)) hsh0 d hd q.length q le_rfl hq
      exact ih _ _ q' phs' (fun m hm => hsh m (by simp [hm])) hloop d hd hstep

/-- Every pending match that is (still) present in the current query, or whose
`@_d` form is, ends with its `@_d` form present in the final query. -/
theorem rewriteLoop_materializes :
    ∀ (ms : List PhMatch) (q : Str) (phs : List (Nat × Str)) (q' : Str)
      (phs' : List (Nat × Str)),
      (∀ m ∈ ms, MatchShape m) →
      rewriteLoop ms q phs = .ok (q', phs') →
      ∀ m ∈ ms,
        (goContains q m.text = true ∨ goContains q ('@' :: '_' :: m.digits) = true) →
        goContains q' ('@' :: '_' :: m.digits) = true := by
  intro ms
  induction ms with
  | nil =>
    intro q phs q' phs' hsh hloop m hm
    cases hm
  | cons m0 ms' ih =>
    intro q phs q' phs' hsh hloop m hm hdisj
    simp only [rewriteLoop] at hloop
    cases hat : atoiDigits m0.digits with
    | none =>
      rw [hat] at hloop
      cases hloop
    | some v =>
      rw [hat] at hloop
      simp only at hloop
      have hsh0 : MatchShape m0 := hsh m0 (by simp)
      have hsh' : ∀ m2 ∈ ms', MatchShape m2 := fun m2 hm2 => hsh m2 (by simp [hm2])
      rcases List.mem_cons.mp hm with rfl | hm'
      · -- m is the match handled at this step
        have hq2 : goContains (replaceAll q m.text
            (if m.pad.getLast? = some ' ' then ('@' :: '_' :: m.digits) ++ [' ']
              else ('@' :: '_' :: m.digits))) ('@' :: '_' :: m.digits) = true := by
          rcases hdisj with htext | hatud
          · have hrep := contains_T_replacement m.text
              (if m.pad.getLast? = some ' ' then ('@' :: '_' :: m.digits) ++ [' ']
                else ('@' :: '_' :: m.digits)) (by simp [PhMatch.text])
              q.length q le_rfl htext
            by_cases hsp : m.pad.getLast? = some ' '
            · rw [if_pos hsp] at hrep ⊢
              exact goContains_of_contains_append hrep
            · rw [if_neg hsp] at hrep ⊢
              exact hrep
          · exact contains_atud_preserved m _ hsh0 m.digits hsh0.2.2.1
              q.length q le_rfl hatud
        exact rewriteLoop_contains_atud ms' _ _ q' phs' hsh' hloop m.digits
          hsh0.2.2.1 hq2
      · -- m is a later pending match
        have hshm : MatchShape m := hsh' m hm'
        have hdisj2 : goContains (replaceAll q m0.text
            (if m0.pad.getLast? = some ' ' then ('@' :: '_' :: m0.digits) ++ [' ']
              else ('@' :: '_' :: m0.digits))) m.text = true ∨
            goContains (replaceAll q m0.text
              (if m0.pad.getLast? = some ' ' then ('@' :: '_' :: m0.digits) ++ [' ']
                else ('@' :: '_' :: m0.digits))) ('@' :: '_' :: m.digits) = true := by
          rcases hdisj with htext | hatud
          · exact contains_pending_preserved m0 m _ hsh0 hshm (keyPrime_eq m0)
              q.length q le_rfl htext
          · exact Or.inr (contains_atud_preserved m0 _ hsh0 m.digits hshm.2.2.1
              q.length q le_rfl hatud)
        exact ih _ _ q' phs' hsh' hloop m hm' hdisj2

/-- C6: for every SELECT statement whose placeholder section parses, the
rewritten query contains zero original placeholder tokens (re-running the
placeholder finder on it yields no match), contains an `@_<n>` occurrence for
each original placeholder occurrence's index, and the required input count
equals the total number of placeholder occurrences found (repeats counted
each time). -/
theorem claim_C6 (q : Str) (parsed : SelectParsed)
    (h : selectParsePh q = .ok parsed) :
    parsed.numInput = (findAllPh q).length ∧
    findAllPh parsed.selectQuery = [] ∧
    ∀ m ∈ findAllPh q,
      goContains parsed.selectQuery ('@' :: '_' :: m.digits) = true := by
  cases hloop : rewriteLoop (findAllPh q) q [] with
  | error e =>
    simp only [selectParsePh, hloop] at h
    cases h
  | ok p =>
    obtain ⟨q', phs⟩ := p
    simp only [selectParsePh, hloop, Except.ok.injEq] at h
    subst h
    have hsh : ∀ m ∈ findAllPh q, MatchShape m := findAllPh_shape_mem q.length q le_rfl
    refine ⟨rfl, ?_, ?_⟩
    · have hinv0 : InvTok q ((findAllPh q).map PhMatch.text) :=
        findAllPh_invTok q.length q le_rfl
      have hinv' : InvTok q' [] := rewriteLoop_invTok (findAllPh q) q [] q' phs hsh hinv0 hloop
      exact findAllPh_nil_of_invTok q'.length q' le_rfl hinv'
    · intro m hm
      have htext : goContains q m.text = true :=
        findAllPh_text_contains q.length q le_rfl m hm
      exact rewriteLoop_materializes (findAllPh q) q [] q' phs hsh hloop m hm (Or.inl htext)

theorem claim_C6_witness :
    (⟨2, [(2, ['@', '_', '2']), (1, ['@', '_', '1'])],
        ['S', ' ', '@', '_', '1', ' ', '@', '_', '2']⟩ : SelectParsed).numInput =
      (findAllPh ['S', ' ', '@', '1', ' ', ':', '2']).length ∧
    findAllPh (SelectParsed.selectQuery ⟨2, [(2, ['@', '_', '2']), (1, ['@', '_', '1'])],
        ['S', ' ', '@', '_', '1', ' ', '@', '_', '2']⟩) = [] ∧
    ∀ m ∈ findAllPh ['S', ' ', '@', '1', ' ', ':', '2'],
      goContains (SelectParsed.selectQuery ⟨2, [(2, ['@', '_', '2']), (1, ['@', '_', '1'])],
        ['S', ' ', '@', '_', '1', ' ', '@', '_', '2']⟩) ('@' :: '_' :: m.digits) = true :=
  claim_C6 ['S', ' ', '@', '1', ' ', ':', '2']
    ⟨2, [(2, ['@', '_', '2']), (1, ['@', '_', '1'])],
      ['S', ' ', '@', '_', '1', ' ', '@', '_', '2']⟩
    (by simp +decide [selectParsePh, findAllPh_unfold, findAllPh.eq_1, matchPhAt,
      rewriteLoop, replaceAll_unfold, replaceAll_nil, atoiDigits, digitsVal, maxInt64,
      PhMatch.text])

end GoCosmos
